import Mathlib

/-!
Verification development for the ren2svif repository: a shallow embedding of
the property-graph pipeline (`helpers.py`, `transformations.py`, `main.py`)
and proofs about the claims of its specification.

Python dictionaries are embedded as association lists `List (String × α)`
with insertion-order semantics: assigning to an existing key updates its
binding in place, assigning to a fresh key appends it at the end, and
`dict.pop` removes the key.  The graph primitives used by the pipeline
(`find_nodes`, `find_edges`, `targets`, `sources`, `find_paths`, `clean_up`,
interchange serialization) live in `graph.py`, which is not part of the
provided sources; those definitions are modelled from the specification
(section 4.1 and section 6) and are marked as such.
-/

set_option maxRecDepth 10000

/-- Looks up the first binding of key `k` in an association list. -/
def lookupA {α : Type} (ps : List (String × α)) (k : String) : Option α :=
  match ps with
  | [] => none
  | (k', v) :: rest => if k' = k then some v else lookupA rest k

/-- Python `d[k] = v`: update the binding of `k` in place if present, else append. -/
def setA {α : Type} (ps : List (String × α)) (k : String) (v : α) : List (String × α) :=
  match ps with
  | [] => [(k, v)]
  | (k', v') :: rest => if k' = k then (k', v) :: rest else (k', v') :: setA rest k v

/-- Python `d.pop(k, None)` effect on the dictionary: remove the bindings of `k`. -/
def popA {α : Type} : List (String × α) → String → List (String × α)
  | [], _ => []
  | (k', v') :: rest, k => if k' = k then popA rest k else (k', v') :: popA rest k

/-- Python `d.update(other)`: assign every binding of `other` into `base`. -/
def updateA {α : Type} (base other : List (String × α)) : List (String × α) :=
  other.foldl (fun b kv => setA b kv.1 kv.2) base

/-- Mutate the value bound to `k` in place (Python mutation of a dict-resident object). -/
def mutA {α : Type} : List (String × α) → String → (α → α) → List (String × α)
  | [], _, _ => []
  | (k', v') :: rest, k, f =>
      if k' = k then (k', f v') :: mutA rest k f else (k', v') :: mutA rest k f

/-- Python `defaultdict(list)` append: `d[k].append(v)`. -/
def appendA {α : Type} (ps : List (String × List α)) (k : String) (v : α) :
    List (String × List α) :=
  match ps with
  | [] => [(k, [v])]
  | (k', l) :: rest => if k' = k then (k', l ++ [v]) :: rest else (k', l) :: appendA rest k v

/-- Keys of an association list. -/
def keysA {α : Type} (ps : List (String × α)) : List String :=
  ps.map Prod.fst

/-- Heterogeneous property value (string, number or boolean). -/
inductive Value : Type where
  | str : String → Value
  | num : Int → Value
  | bool : Bool → Value
deriving DecidableEq, Repr

/-- Python truthiness of a property value. -/
def Value.truthy : Value → Bool
  | .str s => s ≠ ""
  | .num n => n ≠ 0
  | .bool b => b

/-- A property dictionary. -/
abbrev Props : Type := List (String × Value)

/-- An old-id to new-id mapping. -/
abbrev Smap : Type := List (String × String)

/-- A graph node: id, label set and property dictionary. -/
structure Node : Type where
  id : String
  labels : List String
  props : Props
deriving DecidableEq, Repr

/-- A graph edge: source id, target id, label and property dictionary. -/
structure Edge : Type where
  source : String
  target : String
  label : String
  props : Props
deriving DecidableEq, Repr

/-- The in-memory graph: node store and edge store.  The Python `Graph` keys
nodes by id and groups edges by label; membership-level behaviour is captured
by flat lists here, with per-label edge order preserved. -/
structure Graph : Type where
  nodes : List Node
  edges : List Edge
deriving DecidableEq, Repr

/-- Modelled from the spec: `findNodesByLabel` from `graph.py` (not in `src/`):
nodes whose label set contains the label. -/
def find_nodes (g : Graph) (lbl : String) : List Node :=
  g.nodes.filter (fun n => lbl ∈ n.labels)

/-- Modelled from the spec: `findEdgesByLabel` from `graph.py` (not in `src/`):
all edges with exactly that label. -/
def find_edges (g : Graph) (lbl : String) : List Edge :=
  g.edges.filter (fun e => e.label = lbl)

/-- Modelled from the spec: outgoing neighbour query `n.targets(label)` from
`graph.py` (not in `src/`): target nodes of edges of the label leaving `n`;
dangling edges contribute nothing. -/
def targets (g : Graph) (n : Node) (lbl : String) : List Node :=
  (g.edges.filter (fun e => e.label = lbl ∧ e.source = n.id)).filterMap
    (fun e => g.nodes.find? (fun m => m.id = e.target))

/-- Modelled from the spec: incoming neighbour query `n.sources(label)` from
`graph.py` (not in `src/`). -/
def sources (g : Graph) (n : Node) (lbl : String) : List Node :=
  (g.edges.filter (fun e => e.label = lbl ∧ e.target = n.id)).filterMap
    (fun e => g.nodes.find? (fun m => m.id = e.source))

/-- Modelled from the spec: `findTwoHopPaths(label1, label2)` from `graph.py`
(not in `src/`): all pairs `(e1, e2)` with the requested labels such that
`e1.target == e2.source`. -/
def find_paths (g : Graph) (l1 l2 : String) : List (Edge × Edge) :=
  (find_edges g l1).flatMap (fun e1 =>
    (find_edges g l2).filterMap (fun e2 =>
      if e1.target = e2.source then some (e1, e2) else none))

/-- The provenance marker value. -/
def renSrc : Value := Value.str "renaissance"

/-- helpers.py `rename_properties`: rename `symbol` to `simpleName` and `name`
to `qualifiedName` if present, then add `metaSrc`. -/
def renameA (ps : Props) (o n : String) : Props :=
  match lookupA ps o with
  | some v => setA (popA ps o) n v
  | none => ps

/-- helpers.py `rename_properties`. -/
def rename_properties (ps : Props) : Props :=
  setA (renameA (renameA ps "symbol" "simpleName") "name" "qualifiedName") "metaSrc" renSrc

/-- helpers.py `merge_properties`: start from the declaration properties,
overwrite collisions with the definition properties, then apply the renames
and add `metaSrc`. -/
def merge_properties (def_props decl_props : Props) : Props :=
  setA (renameA (renameA (updateA decl_props def_props) "symbol" "simpleName")
      "name" "qualifiedName") "metaSrc" renSrc

/-- Python `path.replace("\\", "/")`: the pattern is a single character, so
this is a character map. -/
def normSlashes (s : String) : String :=
  String.mk (s.data.map (fun c => if c = '\\' then '/' else c))

/-- Python `s.split("/")` on a character list: splitting on a single-character
separator, always returning at least one (possibly empty) segment. -/
def splitSlash : List Char → List (List Char)
  | [] => [[]]
  | c :: rest =>
      if c = '/' then [] :: splitSlash rest
      else
        match splitSlash rest with
        | [] => [[c]]
        | seg :: segs => (c :: seg) :: segs

/-- Last element of a list with a default (Python `xs[-1]` on a non-empty list). -/
def lastD {α : Type} : List α → α → α
  | [], d => d
  | [a], _ => a
  | _ :: b :: rest, d => lastD (b :: rest) d

/-- Last `/`-delimited segment of the normalized path, with Python's
`split("/")[-1] or norm_path` fallback to the whole normalized path. -/
def lastSegOr (p : String) : String :=
  let norm := normSlashes p
  let lp := String.mk (lastD (splitSlash norm.data) [])
  if lp = "" then norm else lp

/-- The `sid = old_id if old_id else "unknown"` fallback branch of
`parse_path_as_name` (an empty or missing old id is falsy in Python). -/
def parseFallbackOld (ps1 : Props) (old_id : Option String) : Props :=
  let sid := match old_id with
    | some s => if s = "" then "unknown" else s
    | none => "unknown"
  setA (setA (setA ps1 "simpleName" (Value.str sid)) "qualifiedName" (Value.str sid))
    "metaSrc" renSrc

/-- helpers.py `parse_path_as_name`.  Returns `none` exactly when the Python
function raises: a `name` property bound to a non-string value (on which
`path_val.replace` would fail). -/
def parse_path_as_name (ps : Props) (old_id : Option String) : Option Props :=
  let pathv := lookupA ps "name"
  let symv := lookupA ps "symbol"
  let ps1 := popA (popA ps "name") "symbol"
  match pathv with
  | some (Value.str p) =>
      some (setA (setA (setA ps1 "qualifiedName" (Value.str p))
        "simpleName" (Value.str (lastSegOr p))) "metaSrc" renSrc)
  | some _ => none
  | none =>
      match symv with
      | some sv =>
          if sv.truthy then
            some (setA (setA (setA ps1 "simpleName" sv) "qualifiedName" sv) "metaSrc" renSrc)
          else
            some (parseFallbackOld ps1 old_id)
      | none => some (parseFallbackOld ps1 old_id)

/-- Insert a space between a lowercase-or-digit character and an uppercase
character; equivalent to the regex substitution in
`normalize_label_camelcase` (a match's second character is uppercase and can
never begin the next match, so pairwise insertion agrees with `re.sub`). -/
def camelSplit : List Char → List Char
  | [] => []
  | [c] => [c]
  | a :: b :: rest =>
      if (a.isLower || a.isDigit) && b.isUpper then a :: ' ' :: camelSplit (b :: rest)
      else a :: camelSplit (b :: rest)

/-- helpers.py `normalize_label_camelcase`. -/
def normalize_label_camelcase (lbl : String) : String :=
  String.mk ((camelSplit lbl.data).map Char.toLower)

/-- A dictionary of new nodes keyed by new id. -/
abbrev NDict : Type := List (String × Node)

/-- The `CppDeclaration` nodes of the graph. -/
def cppDeclNodes (g : Graph) : List Node := find_nodes g "CppDeclaration"

/-- The `CppForwardDeclaration` nodes of the graph. -/
def cppFwdNodes (g : Graph) : List Node := find_nodes g "CppForwardDeclaration"

/-- `all_decl_ids`: the set of declaration and forward-declaration ids
(a Python set, embedded as a deduplicated list). -/
def all_decl_ids (g : Graph) : List String :=
  ((cppDeclNodes g).map Node.id ++ (cppFwdNodes g).map Node.id).dedup

/-- Union-find parent table initialisation: every id is its own parent. -/
def ufInit (ids : List String) : Smap := ids.map (fun i => (i, i))

/-- The union-find `find`, with explicit fuel bounding the parent-chain walk.
In the source the `CppAlias` processing block that would call `union` is
commented out, so the parent table is never changed after initialisation. -/
def ufFind (par : Smap) : Nat → String → String
  | 0, x => x
  | fuel + 1, x =>
      match lookupA par x with
      | some p => if p = x then x else ufFind par fuel p
      | none => x

/-- Representative of `x` in the (never-united) union-find structure of pass 1. -/
def compOf (g : Graph) (x : String) : String :=
  ufFind (ufInit (all_decl_ids g)) (all_decl_ids g).length x

/-- The representatives, i.e. the keys of `comp_members`. -/
def compReps (g : Graph) : List String :=
  ((all_decl_ids g).map (compOf g)).dedup

/-- `group_has_contains`: some `CppDeclaration` member of the group has an
outgoing `CppContains` edge (forward declarations are not scanned). -/
def group_has_contains (g : Graph) (r : String) : Bool :=
  (cppDeclNodes g).any (fun n => compOf g n.id = r && !(targets g n "CppContains").isEmpty)

/-- `group_has_inherits`: some `CppDeclaration` member of the group takes part
in a `CppInherits` edge in either direction. -/
def group_has_inherits (g : Graph) (r : String) : Bool :=
  (cppDeclNodes g).any (fun n => compOf g n.id = r &&
    (!(targets g n "CppInherits").isEmpty || !(sources g n "CppInherits").isEmpty))

/-- Whether group `r` is classified as a Structure (else Variable). -/
def structCrit (g : Graph) (r : String) : Bool :=
  group_has_contains g r || group_has_inherits g r

/-- Properties of the original node with id `x` (`merged_props` of a
singleton group is just that node's property dictionary). -/
def origProps (g : Graph) (x : String) : Props :=
  match g.nodes.find? (fun n => n.id = x) with
  | some n => n.props
  | none => []

/-- The new node id chosen for representative `r` in pass 1. -/
def p1newId (g : Graph) (r : String) : String :=
  if structCrit g r then "class" ++ r else "variable" ++ r

/-- The new node built for representative `r` in pass 1. -/
def p1initNode (g : Graph) (r : String) : Node :=
  let pr := rename_properties (origProps g r)
  if structCrit g r then
    Node.mk ("class" ++ r) ["Structure"] (setA pr "kind" (Value.str "class/struct/template"))
  else
    Node.mk ("variable" ++ r) ["Variable"] (setA pr "kind" (Value.str "variable"))

/-- The `new_nodes_dict` of pass 1 before the edge-building loop. -/
def p1nodes0 (g : Graph) : NDict :=
  (compReps g).foldl (fun d r => setA d (p1newId g r) (p1initNode g r)) []

/-- The `id_mapping` of pass 1: every member maps to its group's new node id. -/
def p1mapping (g : Graph) : Smap :=
  (all_decl_ids g).foldl (fun m x => setA m x (p1newId g (compOf g x))) []

/-- Python `labels.add(l)` on a node (idempotent set insertion). -/
def addLabel (n : Node) (l : String) : Node :=
  if l ∈ n.labels then n else Node.mk n.id (n.labels ++ [l]) n.props

/-- Python `node.properties["kind"] = v`. -/
def setKind (n : Node) (v : String) : Node :=
  Node.mk n.id n.labels (setA n.props "kind" (Value.str v))

/-- Pass-1 state while building `hasVariable` and `contains` edges. -/
structure P1St : Type where
  nodes : NDict
  hv : List Edge
  ct : List Edge
deriving DecidableEq, Repr

/-- Body of the inner loop of pass 1 over a `CppContains` child of a
Structure-classified declaration. -/
def p1childStep (g : Graph) (parentNew : String) (st : P1St) (childOld : String) : P1St :=
  match lookupA (p1mapping g) childOld with
  | none => st
  | some childNew =>
      match lookupA st.nodes childNew with
      | none => st
      | some childNode =>
          if "Variable" ∈ childNode.labels then
            P1St.mk (mutA st.nodes childNew (fun n => setKind n "field"))
              (st.hv ++ [Edge.mk parentNew childNew "hasVariable" [("metaSrc", renSrc)]])
              st.ct
          else if "Structure" ∈ childNode.labels then
            P1St.mk (mutA st.nodes parentNew (fun n => addLabel n "Container"))
              st.hv
              (st.ct ++ [Edge.mk parentNew childNew "contains" [("metaSrc", renSrc)]])
          else st

/-- Body of the outer loop of pass 1 over the `CppDeclaration` nodes. -/
def p1declStep (g : Graph) (st : P1St) (declNode : Node) : P1St :=
  match lookupA (p1mapping g) declNode.id with
  | none => st
  | some parentNew =>
      match lookupA st.nodes parentNew with
      | none => st
      | some parentNode =>
          if "Structure" ∈ parentNode.labels then
            ((targets g declNode "CppContains").map Node.id).foldl (p1childStep g parentNew) st
          else st

/-- Pass-1 state after the `hasVariable` / `contains` loop. -/
def p1afterContains (g : Graph) : P1St :=
  (cppDeclNodes g).foldl (p1declStep g) (P1St.mk (p1nodes0 g) [] [])

/-- The `specializes` edges of pass 1, computed on the final node dictionary. -/
def p1specializes (g : Graph) (nd : NDict) : List Edge :=
  (find_edges g "CppInherits").filterMap (fun ed =>
    match lookupA (p1mapping g) ed.source, lookupA (p1mapping g) ed.target with
    | some srcId, some tgtId =>
        match lookupA nd srcId, lookupA nd tgtId with
        | some srcN, some tgtN =>
            if "Structure" ∈ srcN.labels ∧ "Structure" ∈ tgtN.labels then
              some (Edge.mk srcId tgtId "specializes" [("metaSrc", renSrc)])
            else none
        | _, _ => none
    | _, _ => none)

/-- transformations.py `collect_structures_and_variables` (pass 1).  The edge
list is the label-grouped concatenation; all claims are membership-level, so
the grouping order is fixed here as hasVariable, contains, specializes. -/
def collect_structures_and_variables (g : Graph) : List Node × List Edge × Smap :=
  let st := p1afterContains g
  (st.nodes.map Prod.snd, st.hv ++ st.ct ++ p1specializes g st.nodes, p1mapping g)

/-- Projection: pass-1 node list. -/
def p1nodes (g : Graph) : List Node := (collect_structures_and_variables g).1

/-- Projection: pass-1 edge list. -/
def p1edges (g : Graph) : List Edge := (collect_structures_and_variables g).2.1

/-- The `CppFunctionDefinition` nodes keyed by id. -/
def defn_by_id (g : Graph) : NDict :=
  (find_nodes g "CppFunctionDefinition").foldl (fun d n => setA d n.id n) []

/-- The `CppFunctionDeclaration` nodes keyed by id. -/
def decl_by_id (g : Graph) : NDict :=
  (find_nodes g "CppFunctionDeclaration").foldl (fun d n => setA d n.id n) []

/-- The `CppMacroDefinition` nodes keyed by id. -/
def macr_by_id (g : Graph) : NDict :=
  (find_nodes g "CppMacroDefinition").foldl (fun d n => setA d n.id n) []

/-- `decl_for_defn`: definition id to the list of declaration ids it
implements, via `CppImplements` edges with both endpoints valid. -/
def decl_for_defn (g : Graph) : List (String × List String) :=
  (find_edges g "CppImplements").foldl (fun d e =>
    if (lookupA (defn_by_id g) e.source).isSome && (lookupA (decl_by_id g) e.target).isSome
    then appendA d e.source e.target else d) []

/-- Pass-2 state for the node-creation stages. -/
structure P2St : Type where
  nodes : NDict
  mapping : Smap
  handled : List String
deriving DecidableEq, Repr

/-- The new Operation id for a merged definition-declaration pair. -/
def opId (dId cId : String) : String := "function" ++ dId ++ "_" ++ cId

/-- Inner loop of the merge pass: merge definition `dId` with declaration
`cId` unless the declaration was already handled.  Note the definition's
mapping entry is (re)assigned on every merge. -/
def p2mergeInner (g : Graph) (dId : String) (dNode : Node) (st : P2St) (cId : String) : P2St :=
  if cId ∈ st.handled then st else
  match lookupA (decl_by_id g) cId with
  | none => st
  | some cNode =>
      let merged := merge_properties dNode.props cNode.props
      P2St.mk (setA st.nodes (opId dId cId) (Node.mk (opId dId cId) ["Operation"] merged))
        (setA (setA st.mapping dId (opId dId cId)) cId (opId dId cId))
        (st.handled ++ [dId, cId])

/-- Outer loop of the merge pass over the definitions. -/
def p2mergeStep (g : Graph) (st : P2St) (kv : String × Node) : P2St :=
  if kv.1 ∈ st.handled then st
  else ((lookupA (decl_for_defn g) kv.1).getD []).foldl (p2mergeInner g kv.1 kv.2) st

/-- Pass-2 state after the definition-declaration merge pass. -/
def p2afterMerge (g : Graph) : P2St :=
  (defn_by_id g).foldl (p2mergeStep g) (P2St.mk [] [] [])

/-- Leftover definitions become standalone Operations. -/
def p2leftDefStep (st : P2St) (kv : String × Node) : P2St :=
  if kv.1 ∈ st.handled then st else
  P2St.mk (setA st.nodes ("funcdef" ++ kv.1)
      (Node.mk ("funcdef" ++ kv.1) ["Operation"] (rename_properties kv.2.props)))
    (setA st.mapping kv.1 ("funcdef" ++ kv.1)) (st.handled ++ [kv.1])

/-- Leftover declarations become standalone Operations. -/
def p2leftDeclStep (st : P2St) (kv : String × Node) : P2St :=
  if kv.1 ∈ st.handled then st else
  P2St.mk (setA st.nodes ("funcdecl" ++ kv.1)
      (Node.mk ("funcdecl" ++ kv.1) ["Operation"] (rename_properties kv.2.props)))
    (setA st.mapping kv.1 ("funcdecl" ++ kv.1)) (st.handled ++ [kv.1])

/-- Macros not yet mapped become Scripts with kind macro. -/
def p2macroStep (st : P2St) (kv : String × Node) : P2St :=
  if (lookupA st.mapping kv.1).isSome then st else
  P2St.mk (setA st.nodes ("macro" ++ kv.1)
      (Node.mk ("macro" ++ kv.1) ["Script"]
        (setA (rename_properties kv.2.props) "kind" (Value.str "macro"))))
    (setA st.mapping kv.1 ("macro" ++ kv.1)) st.handled

/-- Pass-2 state after all node-creation stages. -/
def p2afterCreate (g : Graph) : P2St :=
  (macr_by_id g).foldl p2macroStep
    ((decl_by_id g).foldl p2leftDeclStep
      ((defn_by_id g).foldl p2leftDefStep (p2afterMerge g)))

/-- `contains_map`: old target id to the list of old source ids of
`CppContains` edges. -/
def contains_map (g : Graph) : List (String × List String) :=
  (find_edges g "CppContains").foldl (fun d e => appendA d e.target e.source) []

/-- `all_func_ids`: definition, declaration and macro ids in dictionary order. -/
def all_func_ids (g : Graph) : List String :=
  keysA (defn_by_id g) ++ keysA (decl_by_id g) ++ keysA (macr_by_id g)

/-- Pass-2 state for the containment (`hasScript`) stage. -/
structure P2Hs : Type where
  nodes : NDict
  hs : List Edge
deriving DecidableEq, Repr

/-- Handle one containing parent of a function or macro. -/
def p2parentStep (sm : Smap) (newId : String) (st : P2Hs) (p : String) : P2Hs :=
  match lookupA sm p with
  | none => st
  | some structNew =>
      let st1 := P2Hs.mk st.nodes (st.hs ++ [Edge.mk structNew newId "hasScript" []])
      match lookupA st1.nodes newId with
      | some nObj =>
          if "Operation" ∈ nObj.labels then
            P2Hs.mk (mutA st1.nodes newId (fun n => setKind n "method")) st1.hs
          else st1
      | none => st1

/-- Handle one function/macro id in the containment stage: emit `hasScript`
edges for structure parents and finalise the kind property. -/
def p2funcStep (g : Graph) (sm : Smap) (mapping : Smap) (st : P2Hs) (oldId : String) : P2Hs :=
  match lookupA mapping oldId with
  | none => st
  | some newId =>
      if newId = "" then st else
      match lookupA st.nodes newId with
      | none => st
      | some _ =>
          let st1 := ((lookupA (contains_map g) oldId).getD []).foldl (p2parentStep sm newId) st
          match lookupA st1.nodes newId with
          | some nObj =>
              if "Operation" ∈ nObj.labels ∧
                  lookupA nObj.props "kind" ≠ some (Value.str "method") then
                P2Hs.mk (mutA st1.nodes newId (fun n => setKind n "function")) st1.hs
              else st1
          | none => st1

/-- `calls_map`: caller id to the set of callee ids of `CppCalls` edges. -/
def calls_map (g : Graph) : List (String × List String) :=
  (find_edges g "CppCalls").foldl (fun d e =>
    if e.target ∈ (lookupA d e.source).getD [] then d else appendA d e.source e.target) []

/-- `invoke_pairs`: the set of distinct (new source, new target) pairs with
both endpoints mapped and self-loops suppressed. -/
def invoke_pairs (g : Graph) (mapping : Smap) : List (String × String) :=
  (calls_map g).foldl (fun acc kv =>
    match lookupA mapping kv.1 with
    | none => acc
    | some ns =>
        kv.2.foldl (fun acc2 ot =>
          match lookupA mapping ot with
          | none => acc2
          | some nt =>
              if ns ≠ nt ∧ (ns, nt) ∉ acc2 then acc2 ++ [(ns, nt)] else acc2) acc) []

/-- The `invoke` edges of pass 2. -/
def invokeEdges (g : Graph) (mapping : Smap) : List Edge :=
  (invoke_pairs g mapping).map (fun p => Edge.mk p.1 p.2 "invoke" [])

/-- transformations.py `collect_operations_and_macros` (pass 2). -/
def collect_operations_and_macros (g : Graph) (structure_mapping : Smap) :
    List Node × List Edge × Smap :=
  let st := p2afterCreate g
  let hsSt := (all_func_ids g).foldl (p2funcStep g structure_mapping st.mapping)
    (P2Hs.mk st.nodes [])
  (hsSt.nodes.map Prod.snd, hsSt.hs ++ invokeEdges g st.mapping, st.mapping)

/-- Projection: pass-2 mapping. -/
def p2map (g : Graph) (sm : Smap) : Smap := (collect_operations_and_macros g sm).2.2

/-- Projection: pass-2 node list. -/
def p2nodes (g : Graph) (sm : Smap) : List Node := (collect_operations_and_macros g sm).1

/-- Projection: pass-2 edge list. -/
def p2edges (g : Graph) (sm : Smap) : List Edge := (collect_operations_and_macros g sm).2.1

/-- Pass-3 state after converting file nodes: new file node dictionary and
the combined mapping. -/
structure P3Files : Type where
  fd : NDict
  cm : Smap
deriving DecidableEq, Repr

/-- Convert one file node; `none` when `parse_path_as_name` raises.  The
mapping entry for the old file id is written unconditionally. -/
def p3fileStep (kind : String) (acc : Option P3Files) (n : Node) : Option P3Files :=
  match acc with
  | none => none
  | some st =>
      match parse_path_as_name n.props (some n.id) with
      | none => none
      | some ps =>
          some (P3Files.mk
            (setA st.fd ("file" ++ n.id)
              (Node.mk ("file" ++ n.id) ["Structure"] (setA ps "kind" (Value.str kind))))
            (setA st.cm n.id ("file" ++ n.id)))

/-- The file-conversion stage of pass 3 over SourceFile, HeaderFile and
OtherFile nodes in order. -/
def p3files (g : Graph) (existing : Smap) : Option P3Files :=
  (find_nodes g "OtherFile").foldl (p3fileStep "other file")
    ((find_nodes g "HeaderFile").foldl (p3fileStep "header file")
      ((find_nodes g "SourceFile").foldl (p3fileStep "source file")
        (some (P3Files.mk [] existing))))

/-- `get_new_node_labels`: labels of the new node an old id maps to, looking
first in the file dictionary, then in the prior-pass node dictionary. -/
def get_new_node_labels (cm : Smap) (fd nd : NDict) (oldId : String) : List String :=
  match lookupA cm oldId with
  | none => []
  | some nid =>
      if nid = "" then [] else
      match lookupA fd nid with
      | some n => n.labels
      | none =>
          match lookupA nd nid with
          | some n => n.labels
          | none => []

/-- Pass-3 state for the Source-edge inversion stage. -/
structure P3Src : Type where
  hv : List Edge
  hs : List Edge
  assoc : List Edge
  vf : List (String × List String)
deriving DecidableEq, Repr

/-- Python set-add into `var_func_to_files`. -/
def addSetA (d : List (String × List String)) (k v : String) : List (String × List String) :=
  if v ∈ (lookupA d k).getD [] then d else appendA d k v

/-- Handle one original `Source` edge (either orientation). -/
def p3srcStep (cm : Smap) (fd nd : NDict) (st : P3Src) (e : Edge) : P3Src :=
  let newS := lookupA cm e.source
  let newT := lookupA cm e.target
  let sIsFile := (newS.bind (lookupA fd)).isSome
  let tIsFile := (newT.bind (lookupA fd)).isSome
  let sLabels := get_new_node_labels cm fd nd e.source
  let tLabels := get_new_node_labels cm fd nd e.target
  if !sIsFile && tIsFile && (newS.map (fun s => s != "")).getD false then
    match newS, newT with
    | some mainId, some fileId =>
        if "Variable" ∈ sLabels then
          { st with hv := st.hv ++ [Edge.mk fileId mainId "hasVariable" []],
                    vf := addSetA st.vf e.source e.target }
        else if "Operation" ∈ sLabels ∨ "Script" ∈ sLabels then
          { st with hs := st.hs ++ [Edge.mk fileId mainId "hasScript" []],
                    vf := addSetA st.vf e.source e.target }
        else if "Structure" ∈ sLabels then
          { st with assoc := st.assoc ++ [Edge.mk mainId fileId "association" []] }
        else st
    | _, _ => st
  else if sIsFile && !tIsFile && (newT.map (fun t => t != "")).getD false then
    match newS, newT with
    | some fileId, some mainId =>
        if "Variable" ∈ tLabels then
          { st with hv := st.hv ++ [Edge.mk fileId mainId "hasVariable" []],
                    vf := addSetA st.vf e.target e.source }
        else if "Operation" ∈ tLabels ∨ "Script" ∈ tLabels then
          { st with hs := st.hs ++ [Edge.mk fileId mainId "hasScript" []],
                    vf := addSetA st.vf e.target e.source }
        else if "Structure" ∈ tLabels then
          { st with assoc := st.assoc ++ [Edge.mk mainId fileId "association" []] }
        else st
    | _, _ => st
  else st

/-- The interface/implementation pairing stage: a variable or function seen
in both a source file and a header file yields association edges. -/
def p3pairStep (cm : Smap) (fd : NDict) (acc : List Edge) (kv : String × List String) :
    List Edge :=
  let sfids := kv.2.filterMap (fun fid =>
    match lookupA cm fid with
    | some nfid =>
        match lookupA fd nfid with
        | some fn =>
            if lookupA fn.props "kind" = some (Value.str "source file") then some nfid else none
        | none => none
    | none => none)
  let hfids := kv.2.filterMap (fun fid =>
    match lookupA cm fid with
    | some nfid =>
        match lookupA fd nfid with
        | some fn =>
            if lookupA fn.props "kind" = some (Value.str "source file") then none
            else if lookupA fn.props "kind" = some (Value.str "header file") then some nfid
            else none
        | none => none
    | none => none)
  acc ++ sfids.flatMap (fun s => hfids.map (fun h => Edge.mk s h "association" []))

/-- The `CppUses` rewriting stage of pass 3. -/
def p3uses (g : Graph) (cm : Smap) (fd : NDict) : List Edge :=
  (find_edges g "CppUses").filterMap (fun e =>
    match lookupA cm e.source, lookupA cm e.target with
    | some nf, some nt =>
        if (lookupA fd nf).isSome ∧ nt ≠ "" then some (Edge.mk nf nt "uses" []) else none
    | _, _ => none)

/-- transformations.py `collect_files_and_associations` (pass 3).  Returns
`none` exactly when the Python function raises inside `parse_path_as_name`. -/
def collect_files_and_associations (g : Graph) (existing : Smap) (newNodesList : List Node) :
    Option (List Node × List Edge × Smap) :=
  match p3files g existing with
  | none => none
  | some fst =>
      let nd := newNodesList.foldl (fun d n => setA d n.id n) []
      let src := (find_edges g "Source").foldl (p3srcStep fst.cm fst.fd nd) (P3Src.mk [] [] [] [])
      let assoc2 := src.vf.foldl (p3pairStep fst.cm fst.fd) src.assoc
      some (fst.fd.map Prod.snd, src.hv ++ src.hs ++ assoc2 ++ p3uses g fst.cm fst.fd, fst.cm)

/-- transformations.py `ensure_mapped_node_folder_or_structure`: returns an
already-mapped id unchanged, otherwise creates a Container (for folders) or
an auto-promoted Structure; `none` when `parse_path_as_name` raises. -/
def ensure_mapped_node_folder_or_structure (oldNode : Node) (nd : NDict) (cm : Smap) :
    Option (String × NDict × Smap) :=
  match lookupA cm oldNode.id with
  | some nid => some (nid, nd, cm)
  | none =>
      match parse_path_as_name oldNode.props (some oldNode.id) with
      | none => none
      | some props =>
          if "Folder" ∈ oldNode.labels then
            some ("folder" ++ oldNode.id,
              setA nd ("folder" ++ oldNode.id)
                (Node.mk ("folder" ++ oldNode.id) ["Container"]
                  (setA props "kind" (Value.str "folder"))),
              setA cm oldNode.id ("folder" ++ oldNode.id))
          else
            let firstLbl := (oldNode.labels.mergeSort (fun a b => decide (a ≤ b))).headD ""
            some ("auto" ++ oldNode.id,
              setA nd ("auto" ++ oldNode.id)
                (Node.mk ("auto" ++ oldNode.id) ["Structure"]
                  (setA props "kind" (Value.str (normalize_label_camelcase firstLbl)))),
              setA cm oldNode.id ("auto" ++ oldNode.id))

/-- Pass-4 state. -/
structure P4St : Type where
  nd : NDict
  ct : List Edge
  cm : Smap
deriving DecidableEq, Repr

/-- Handle one `ParentFolder` edge: map both endpoints (creating nodes on
demand) and emit the inverted `contains` edge. -/
def p4step (g : Graph) (acc : Option P4St) (e : Edge) : Option P4St :=
  match acc with
  | none => none
  | some st =>
      match g.nodes.find? (fun n => n.id = e.source),
          g.nodes.find? (fun n => n.id = e.target) with
      | some oldA, some oldB =>
          match ensure_mapped_node_folder_or_structure oldA st.nd st.cm with
          | none => none
          | some (aNew, nd1, cm1) =>
              match ensure_mapped_node_folder_or_structure oldB nd1 cm1 with
              | none => none
              | some (bNew, nd2, cm2) =>
                  some (P4St.mk nd2 (st.ct ++ [Edge.mk bNew aNew "contains" []]) cm2)
      | _, _ => some st

/-- transformations.py `invert_parent_folder_edges` (pass 4). -/
def invert_parent_folder_edges (g : Graph) (existing : Smap) :
    Option (List Node × List Edge × Smap) :=
  match (find_edges g "ParentFolder").foldl (p4step g) (some (P4St.mk [] [] existing)) with
  | none => none
  | some st => some (st.nd.map Prod.snd, st.ct, st.cm)

/-- Pass-5 state: the (shared, mutated-in-place) node dictionary and the
emitted extra `contains` edges. -/
structure P5St : Type where
  nd : NDict
  out : List Edge
deriving DecidableEq, Repr

/-- Handle one Source/ParentFolder two-hop path in pass 5. -/
def p5step (cm : Smap) (st : P5St) (pe : Edge × Edge) : P5St :=
  match lookupA cm pe.1.source, lookupA cm pe.1.target, lookupA cm pe.2.target with
  | some newE, some newF, some newD =>
      let st1 :=
        match lookupA st.nd newD, lookupA st.nd newE with
        | some dN, some eN =>
            if "Container" ∈ dN.labels ∧ ("Container" ∈ eN.labels ∨ "Structure" ∈ eN.labels) then
              P5St.mk st.nd (st.out ++ [Edge.mk newD newE "contains" []])
            else st
        | _, _ => st
      match lookupA st1.nd newF, lookupA st1.nd newE with
      | some fN, some eN =>
          if "Structure" ∈ fN.labels ∧ "Structure" ∈ eN.labels then
            P5St.mk (mutA st1.nd newF (fun n => addLabel n "Container"))
              (st1.out ++ [Edge.mk newF newE "contains" []])
          else st1
      | _, _ => st1
  | _, _, _ => st

/-- transformations.py `link_source_parentfolder_structures` (pass 5).  The
Python function returns only the edge list and mutates the shared node
objects in place; the updated dictionary is returned here to carry those
mutations. -/
def link_source_parentfolder_structures (g : Graph) (existing : Smap)
    (newNodesList : List Node) : NDict × List Edge :=
  let nd0 := newNodesList.foldl (fun d n => setA d n.id n) []
  let fin := (find_paths g "Source" "ParentFolder").foldl (p5step existing) (P5St.mk nd0 [])
  (fin.nd, fin.out)

/-- Group edges by label, preserving per-label insertion order
(the label-to-list dictionary of the Python Graph). -/
def groupByLabelE (es : List Edge) : List (String × List Edge) :=
  es.foldl (fun d e => appendA d e.label e) []

/-- main.py `build_graph_from_nodes_edges`: node dictionary keyed by id
(last assignment wins, first position kept) and label-grouped edges. -/
def build_graph_from_nodes_edges (nodes : List Node) (edges : List Edge) : Graph :=
  Graph.mk ((nodes.foldl (fun d n => setA d n.id n) []).map Prod.snd)
    ((groupByLabelE edges).flatMap Prod.snd)

/-- Drop later exact duplicates of a (source, target, label) triple. -/
def dedupSTLGo (seen : List (String × String × String)) : List Edge → List Edge
  | [] => []
  | e :: rest =>
      if (e.source, e.target, e.label) ∈ seen then dedupSTLGo seen rest
      else e :: dedupSTLGo ((e.source, e.target, e.label) :: seen) rest

/-- Modelled from the spec: `Graph.clean_up` from `graph.py` (not in `src/`):
drop edges whose source or target id is absent from the node map, and
collapse exact-duplicate (source, target, label) edges into one. -/
def clean_up (g : Graph) : Graph :=
  Graph.mk g.nodes
    (dedupSTLGo [] (g.edges.filter (fun e =>
      (g.nodes.any (fun n => n.id = e.source)) && (g.nodes.any (fun n => n.id = e.target)))))

/-- main.py `main` with all skip flags off: the five passes in order, the
threaded mapping, final assembly and cleanup.  `none` exactly when the
Python run raises inside `parse_path_as_name`. -/
def mainPipeline (g : Graph) : Option Graph :=
  let s := collect_structures_and_variables g
  let o := collect_operations_and_macros g s.2.2
  let cm1 := updateA s.2.2 o.2.2
  match collect_files_and_associations g cm1 (s.1 ++ o.1) with
  | none => none
  | some f =>
      match invert_parent_folder_edges g f.2.2 with
      | none => none
      | some fol =>
          let allN := s.1 ++ o.1 ++ f.1 ++ fol.1
          let linked := link_source_parentfolder_structures g fol.2.2 allN
          let allN2 := allN.map (fun n => (lookupA linked.1 n.id).getD n)
          some (clean_up (build_graph_from_nodes_edges allN2
            (s.2.1 ++ o.2.1 ++ f.2.1 ++ fol.2.1 ++ linked.2)))

/-- Modelled from the spec: the canonical interchange data of section 6, the
payload under the elements key: a node list and a flat edge list. -/
structure InterData : Type where
  nodes : List Node
  edges : List Edge
deriving DecidableEq, Repr

/-- Modelled from the spec: the internal state of the Python Graph of
`graph.py` (not in `src/`): an id-keyed node map and a label-keyed edge map. -/
structure GraphRepr : Type where
  nodeMap : List (String × Node)
  edgeMap : List (String × List Edge)
deriving DecidableEq, Repr

/-- Modelled from the spec: `toInterchange` from `graph.py` (not in `src/`):
emit the node-map values and the flattened label groups. -/
def toInterchange (g : GraphRepr) : InterData :=
  InterData.mk (g.nodeMap.map Prod.snd) ((g.edgeMap.map Prod.snd).flatten)

/-- Modelled from the spec: `fromInterchange` from `graph.py` (not in
`src/`): key nodes by id and group edges by label. -/
def fromInterchange (d : InterData) : GraphRepr :=
  GraphRepr.mk (d.nodes.map (fun n => (n.id, n))) (groupByLabelE d.edges)

/-- All nodes of a graph representation. -/
def GraphRepr.allNodes (g : GraphRepr) : List Node := g.nodeMap.map Prod.snd

/-- All edges of a graph representation. -/
def GraphRepr.allEdges (g : GraphRepr) : List Edge := (g.edgeMap.map Prod.snd).flatten

/-- Spec-side definition, following the spec's words: the last `/`-delimited
segment of the path after replacing every backslash with `/`.  Used to
compare the specified simple name against the one the code computes. -/
def lastSegSpec (p : String) : String :=
  String.mk (lastD (splitSlash (normSlashes p).data) [])

/-- The ids of the file nodes pass 3 converts. -/
def fileIds (g : Graph) : List String :=
  (find_nodes g "SourceFile").map Node.id ++ (find_nodes g "HeaderFile").map Node.id ++
    (find_nodes g "OtherFile").map Node.id

/-- The empty graph, used as a default when destructuring pipeline output. -/
def gEmpty : Graph := Graph.mk [] []

/-- Concrete input refuting C1: a declaration classified Variable (kind
variable, never contained by a structure) referenced by a source file. -/
def cxGraphC1 : Graph := Graph.mk
  [Node.mk "v1" ["CppDeclaration"] [],
   Node.mk "f1" ["SourceFile"] [("name", Value.str "a.c")]]
  [Edge.mk "v1" "f1" "Source" []]

/-- Concrete input refuting C2: two Structures joined by an inheritance edge
and a ParentFolder edge; pass 4 inverts the latter into a contains edge
whose Structure source never receives the Container label. -/
def cxGraphC2 : Graph := Graph.mk
  [Node.mk "a" ["CppDeclaration"] [], Node.mk "b" ["CppDeclaration"] []]
  [Edge.mk "a" "b" "CppInherits" [], Edge.mk "a" "b" "ParentFolder" []]

/-- Concrete input refuting C3: a node that is both a CppDeclaration and a
SourceFile is mapped by pass 1 and remapped by pass 3. -/
def cxGraphC3 : Graph := Graph.mk
  [Node.mk "n1" ["CppDeclaration", "SourceFile"] []]
  []

/-- Concrete input refuting C4: one definition implements two declarations. -/
def cxGraphC4 : Graph := Graph.mk
  [Node.mk "d0" ["CppFunctionDefinition"] [],
   Node.mk "c1" ["CppFunctionDeclaration"] [],
   Node.mk "c2" ["CppFunctionDeclaration"] []]
  [Edge.mk "d0" "c1" "CppImplements" [], Edge.mk "d0" "c2" "CppImplements" []]

/-- Concrete input refuting C5: a folder that is its own parent folder. -/
def cxGraphC5 : Graph := Graph.mk
  [Node.mk "d" ["Folder"] [("name", Value.str "src")]]
  [Edge.mk "d" "d" "ParentFolder" []]

/-- Witness input: a class containing a member variable and a nested class,
with an inheritance edge. -/
def wGraphP1 : Graph := Graph.mk
  [Node.mk "k" ["CppDeclaration"] [("symbol", Value.str "K")],
   Node.mk "m" ["CppDeclaration"] [("symbol", Value.str "m")],
   Node.mk "j" ["CppDeclaration"] [("symbol", Value.str "J")],
   Node.mk "b" ["CppDeclaration"] []]
  [Edge.mk "k" "m" "CppContains" [], Edge.mk "k" "j" "CppContains" [],
   Edge.mk "j" "b" "CppContains" [], Edge.mk "k" "b" "CppInherits" []]

/-- Witness input for pass 2: one definition implementing one declaration,
one standalone definition, calls between them. -/
def wGraphP2 : Graph := Graph.mk
  [Node.mk "d1" ["CppFunctionDefinition"] [("symbol", Value.str "f")],
   Node.mk "c1" ["CppFunctionDeclaration"] [("name", Value.str "ns::f")],
   Node.mk "e1" ["CppFunctionDefinition"] [("symbol", Value.str "g")]]
  [Edge.mk "d1" "c1" "CppImplements" [],
   Edge.mk "d1" "e1" "CppCalls" [], Edge.mk "d1" "e1" "CppCalls" [],
   Edge.mk "e1" "e1" "CppCalls" []]

/-- Witness input: a variable referenced by a source file, plus a folder. -/
def wGraphP3 : Graph := Graph.mk
  [Node.mk "v1" ["CppDeclaration"] [],
   Node.mk "f1" ["SourceFile"] [("name", Value.str "x/y.c")],
   Node.mk "r1" ["Folder"] [("name", Value.str "x")]]
  [Edge.mk "v1" "f1" "Source" [], Edge.mk "f1" "r1" "ParentFolder" []]

/-- First-defined value: Python dictionary precedence where the first operand
wins (the value of key collisions after an update). -/
def firstSome {α : Type} (a b : Option α) : Option α :=
  match a with
  | some v => some v
  | none => b

/-- Invariant of the pass-1 edge-building loop: binding keys match node ids,
hasVariable targets are field-kinded Variables, and contains sources carry the
Container label. -/
def P1Inv (st : P1St) : Prop :=
  (∀ kv ∈ st.nodes, kv.2.id = kv.1) ∧
  (∀ e ∈ st.hv, e.label = "hasVariable" ∧
    ∃ n, lookupA st.nodes e.target = some n ∧
      "Variable" ∈ n.labels ∧ lookupA n.props "kind" = some (Value.str "field")) ∧
  (∀ e ∈ st.ct, e.label = "contains" ∧
    ∃ n, lookupA st.nodes e.source = some n ∧ "Container" ∈ n.labels)

/-- Invariant of the pass-3 Source-edge loop: hasVariable targets resolve to
Variable-labelled nodes in the file or prior-pass dictionaries, and the other
edge lists carry their fixed labels. -/
def P3Inv (fd nd : NDict) (st : P3Src) : Prop :=
  (∀ e ∈ st.hv, e.label = "hasVariable" ∧
    ∃ n, (lookupA fd e.target = some n ∨ lookupA nd e.target = some n) ∧
      "Variable" ∈ n.labels) ∧
  (∀ e ∈ st.hs, e.label = "hasScript") ∧
  (∀ e ∈ st.assoc, e.label = "association")

/-- Invariant of the pass-5 loop: binding keys match node ids and every
emitted contains edge has a Container-labelled source. -/
def P5Inv (st : P5St) : Prop :=
  (∀ kv ∈ st.nd, kv.2.id = kv.1) ∧
  (∀ e ∈ st.out, e.label = "contains" ∧
    ∃ n, lookupA st.nd e.source = some n ∧ "Container" ∈ n.labels)

/-- Goal predicate of the pass-2 merge analysis: both old ids of a merged
definition-declaration pair map to the merged Operation id, the node table
binds that id to the merged node, and both old ids are marked handled. -/
def P2Goal (d c : String) (v : Node) (st : P2St) : Prop :=
  lookupA st.mapping d = some (opId d c) ∧
  lookupA st.mapping c = some (opId d c) ∧
  lookupA st.nodes (opId d c) = some v ∧
  d ∈ st.handled ∧ c ∈ st.handled

theorem lookupA_setA {α : Type} (ps : List (String × α)) (k j : String) (v : α) :
    lookupA (setA ps k v) j = if j = k then some v else lookupA ps j := by
  induction ps with
  | nil =>
      by_cases h : j = k
      · subst h; simp [setA, lookupA]
      · have h' : ¬ k = j := fun hh => h hh.symm
        simp [setA, lookupA, h, h']
  | cons kv rest ih =>
      obtain ⟨k', v'⟩ := kv
      by_cases h1 : k' = k
      · subst h1
        by_cases h2 : j = k'
        · subst h2; simp [setA, lookupA]
        · have h2' : ¬ k' = j := fun hh => h2 hh.symm
          simp [setA, lookupA, h2, h2']
      · by_cases h2 : k' = j
        · have h3 : ¬ j = k := fun hh => h1 (h2.trans hh)
          simp [setA, lookupA, h1, h2, h3]
        · simp [setA, lookupA, h1, h2, ih]

theorem lookupA_popA {α : Type} (ps : List (String × α)) (k j : String) :
    lookupA (popA ps k) j = if j = k then none else lookupA ps j := by
  induction ps with
  | nil => simp [popA, lookupA]
  | cons kv rest ih =>
      obtain ⟨k', v'⟩ := kv
      by_cases h1 : k' = k
      · subst h1
        by_cases h2 : j = k'
        · subst h2; simp [popA, lookupA, ih]
        · have h2' : ¬ k' = j := fun hh => h2 hh.symm
          simp [popA, lookupA, h2, h2', ih]
      · by_cases h2 : k' = j
        · have h3 : ¬ j = k := fun hh => h1 (h2.trans hh)
          simp [popA, lookupA, h1, h2, h3]
        · simp [popA, lookupA, h1, h2, ih]

theorem lookupA_mutA {α : Type} (ps : List (String × α)) (k j : String) (f : α → α) :
    lookupA (mutA ps k f) j =
      if j = k then (lookupA ps k).map f else lookupA ps j := by
  induction ps with
  | nil => simp [mutA, lookupA]
  | cons kv rest ih =>
      obtain ⟨k', v'⟩ := kv
      by_cases h1 : k' = k
      · subst h1
        by_cases h2 : j = k'
        · subst h2; simp [mutA, lookupA]
        · have h2' : ¬ k' = j := fun hh => h2 hh.symm
          simp [mutA, lookupA, h2, h2', ih]
      · by_cases h2 : k' = j
        · have h3 : ¬ j = k := fun hh => h1 (h2.trans hh)
          simp [mutA, lookupA, h1, h2, h3]
        · simp [mutA, lookupA, h1, h2, ih]

theorem lookupA_appendA {α : Type} (d : List (String × List α)) (k j : String) (v : α) :
    lookupA (appendA d k v) j =
      if j = k then some ((lookupA d k).getD [] ++ [v]) else lookupA d j := by
  induction d with
  | nil =>
      by_cases h : j = k
      · subst h; simp [appendA, lookupA]
      · have h' : ¬ k = j := fun hh => h hh.symm
        simp [appendA, lookupA, h, h']
  | cons kv rest ih =>
      obtain ⟨k', l⟩ := kv
      by_cases h1 : k' = k
      · subst h1
        by_cases h2 : j = k'
        · subst h2; simp [appendA, lookupA]
        · have h2' : ¬ k' = j := fun hh => h2 hh.symm
          simp [appendA, lookupA, h2, h2']
      · by_cases h2 : k' = j
        · have h3 : ¬ j = k := fun hh => h1 (h2.trans hh)
          simp [appendA, lookupA, h1, h2, h3]
        · simp [appendA, lookupA, h1, h2, ih]

theorem lookupA_mem {α : Type} {ps : List (String × α)} {k : String} {v : α}
    (h : lookupA ps k = some v) : (k, v) ∈ ps := by
  induction ps with
  | nil => simp [lookupA] at h
  | cons kv rest ih =>
      obtain ⟨k', v'⟩ := kv
      by_cases h1 : k' = k
      · subst h1
        have hv : v' = v := by simpa [lookupA] using h
        subst hv
        simp
      · simp only [lookupA, if_neg h1] at h
        simp [ih h]

theorem lookupA_none_not_mem_keys {α : Type} {ps : List (String × α)} {k : String} :
    lookupA ps k = none ↔ k ∉ keysA ps := by
  induction ps with
  | nil => simp [lookupA, keysA]
  | cons kv rest ih =>
      obtain ⟨k', v'⟩ := kv
      by_cases h1 : k' = k
      · subst h1; simp [lookupA, keysA]
      · have h1' : ¬ k = k' := fun hh => h1 hh.symm
        simp [lookupA, keysA, h1, h1'] at ih ⊢
        exact ih

theorem lookupA_isSome_mem_keys {α : Type} {ps : List (String × α)} {k : String} :
    (lookupA ps k).isSome = true ↔ k ∈ keysA ps := by
  rcases h : lookupA ps k with _ | v
  · simpa using lookupA_none_not_mem_keys.mp h
  · simp only [Option.isSome_some, true_iff]
    have := lookupA_mem h
    exact List.mem_map.mpr ⟨(k, v), this, rfl⟩

theorem mem_setA {α : Type} {ps : List (String × α)} {k : String} {v : α} {kv : String × α}
    (h : kv ∈ setA ps k v) : kv ∈ ps ∨ kv = (k, v) := by
  induction ps with
  | nil =>
      simp only [setA] at h
      right
      simpa using h
  | cons kv' rest ih =>
      obtain ⟨k', v'⟩ := kv'
      by_cases h1 : k' = k
      · subst h1
        rcases List.mem_cons.mp (by simpa [setA] using h) with h2 | h2
        · right; simpa using h2
        · left; simp [h2]
      · rcases List.mem_cons.mp (by simpa [setA, h1] using h) with h2 | h2
        · left; simp [h2]
        · rcases ih h2 with h3 | h3
          · left; simp [h3]
          · right; exact h3

theorem keysA_setA {α : Type} (ps : List (String × α)) (k : String) (v : α) :
    keysA (setA ps k v) = if k ∈ keysA ps then keysA ps else keysA ps ++ [k] := by
  induction ps with
  | nil => simp [setA, keysA]
  | cons kv rest ih =>
      obtain ⟨k', v'⟩ := kv
      by_cases h1 : k' = k
      · subst h1; simp [setA, keysA]
      · have h1' : ¬ k = k' := fun hh => h1 hh.symm
        simp only [setA, if_neg h1, keysA, List.map]
        by_cases h2 : k ∈ List.map Prod.fst rest
        · rw [show keysA (setA rest k v) = List.map Prod.fst (setA rest k v) from rfl] at ih
          rw [show keysA rest = List.map Prod.fst rest from rfl] at ih
          rw [ih]
          simp [List.mem_cons, h1', h2]
        · rw [show keysA (setA rest k v) = List.map Prod.fst (setA rest k v) from rfl] at ih
          rw [show keysA rest = List.map Prod.fst rest from rfl] at ih
          rw [ih]
          simp [List.mem_cons, h1', h2]

theorem keysA_mutA {α : Type} (ps : List (String × α)) (k : String) (f : α → α) :
    keysA (mutA ps k f) = keysA ps := by
  induction ps with
  | nil => simp [mutA, keysA]
  | cons kv rest ih =>
      obtain ⟨k', v'⟩ := kv
      by_cases h1 : k' = k <;>
        simpa [mutA, keysA, h1] using ih

theorem foldl_inv {σ α : Type} (P : σ → Prop) (f : σ → α → σ) (l : List α) (s : σ)
    (h0 : P s) (hstep : ∀ t a, a ∈ l → P t → P (f t a)) : P (l.foldl f s) := by
  induction l generalizing s with
  | nil => exact h0
  | cons a l ih =>
      exact ih (f s a) (hstep s a (by simp) h0)
        (fun t b hb hp => hstep t b (by simp [hb]) hp)

theorem lookupA_foldl_setA_not_mem {α β : Type} (key : α → String) (val : α → β)
    (l : List α) (init : List (String × β)) (k : String) (h : ∀ x ∈ l, key x ≠ k) :
    lookupA (l.foldl (fun d x => setA d (key x) (val x)) init) k = lookupA init k := by
  apply foldl_inv (fun d => lookupA d k = lookupA init k) _ l init rfl
  intro t a ha ht
  rw [lookupA_setA, if_neg (fun hh => h a ha hh.symm), ht]

theorem lookupA_foldl_setA_stable {α β : Type} (key : α → String) (val : α → β)
    (l : List α) (init : List (String × β)) (k : String) (v : β)
    (h0 : lookupA init k = some v) (h : ∀ x ∈ l, key x = k → val x = v) :
    lookupA (l.foldl (fun d x => setA d (key x) (val x)) init) k = some v := by
  apply foldl_inv (fun d => lookupA d k = some v) _ l init h0
  intro t a ha ht
  rw [lookupA_setA]
  by_cases hk : k = key a
  · rw [if_pos hk, h a ha hk.symm]
  · rw [if_neg hk]; exact ht

theorem lookupA_foldl_setA_self {α β : Type} (key : α → String) (val : α → β)
    (l : List α) (init : List (String × β)) (x : α) (hx : x ∈ l)
    (huniq : ∀ y ∈ l, key y = key x → val y = val x) :
    lookupA (l.foldl (fun y d => setA y (key d) (val d)) init) (key x) = some (val x) := by
  obtain ⟨l1, l2, rfl⟩ := List.append_of_mem hx
  rw [List.foldl_append, List.foldl_cons]
  apply lookupA_foldl_setA_stable
  · rw [lookupA_setA, if_pos rfl]
  · intro y hy hk
    exact huniq y (by simp [hy]) hk

theorem keysA_nodup_foldl_setA {α β : Type} (key : α → String) (val : α → β)
    (l : List α) (init : List (String × β)) (h0 : (keysA init).Nodup) :
    (keysA (l.foldl (fun d x => setA d (key x) (val x)) init)).Nodup := by
  apply foldl_inv (fun d => (keysA d).Nodup) _ l init h0
  intro t a _ ht
  rw [keysA_setA]
  by_cases h : key a ∈ keysA t
  · rw [if_pos h]; exact ht
  · rw [if_neg h]
    simp [List.nodup_append, ht, h]

theorem lookupA_of_mem_nodup {α : Type} {ps : List (String × α)} {kv : String × α}
    (hn : (keysA ps).Nodup) (h : kv ∈ ps) : lookupA ps kv.1 = some kv.2 := by
  induction ps with
  | nil => simp at h
  | cons kv' rest ih =>
      obtain ⟨k', v'⟩ := kv'
      have hn' := hn
      simp only [keysA, List.map, List.nodup_cons] at hn'
      rcases List.mem_cons.mp h with h1 | h1
      · subst h1; simp [lookupA]
      · have hk : ¬ k' = kv.1 := by
          intro hh
          exact hn'.1 (by
            rw [hh]
            exact List.mem_map.mpr ⟨kv, h1, rfl⟩)
        simp only [lookupA, if_neg hk]
        exact ih hn'.2 h1

theorem keysA_appendA {α : Type} (d : List (String × List α)) (k : String) (v : α) :
    keysA (appendA d k v) = if k ∈ keysA d then keysA d else keysA d ++ [k] := by
  induction d with
  | nil => simp [appendA, keysA]
  | cons kv rest ih =>
      obtain ⟨k', l⟩ := kv
      by_cases h1 : k' = k
      · subst h1; simp [appendA, keysA]
      · have h1' : ¬ k = k' := fun hh => h1 hh.symm
        simp only [appendA, if_neg h1, keysA, List.map]
        by_cases h2 : k ∈ List.map Prod.fst rest
        · rw [show keysA (appendA rest k v) = List.map Prod.fst (appendA rest k v) from rfl] at ih
          rw [show keysA rest = List.map Prod.fst rest from rfl] at ih
          rw [ih]
          simp [List.mem_cons, h1', h2]
        · rw [show keysA (appendA rest k v) = List.map Prod.fst (appendA rest k v) from rfl] at ih
          rw [show keysA rest = List.map Prod.fst rest from rfl] at ih
          rw [ih]
          simp [List.mem_cons, h1', h2]

theorem lookupA_foldl_appendA_cond {α β : Type} (ks : α → String) (vs : α → β) (p : α → Bool)
    (es : List α) (acc : List (String × List β)) (s : String) (t : β) :
    (t ∈ (lookupA (es.foldl
        (fun d e => if p e then appendA d (ks e) (vs e) else d) acc) s).getD []) ↔
      t ∈ (lookupA acc s).getD [] ∨ ∃ e ∈ es, p e = true ∧ ks e = s ∧ vs e = t := by
  induction es generalizing acc with
  | nil => simp
  | cons e rest ih =>
      rw [List.foldl_cons, ih]
      by_cases hp : p e
      · rw [if_pos hp]
        by_cases hs : s = ks e
        · subst hs
          rw [lookupA_appendA, if_pos rfl]
          constructor
          · rintro (h | h)
            · simp only [Option.getD_some] at h
              rcases List.mem_append.mp h with h' | h'
              · exact Or.inl h'
              · exact Or.inr ⟨e, by simp, hp, rfl, (List.mem_singleton.mp h').symm⟩
            · obtain ⟨e', he', h1, h2, h3⟩ := h
              exact Or.inr ⟨e', by simp [he'], h1, h2, h3⟩
          · rintro (h | ⟨e', he', h1, h2, h3⟩)
            · left; simp only [Option.getD_some]; exact List.mem_append.mpr (Or.inl h)
            · rcases List.mem_cons.mp he' with rfl | he'
              · left
                simp only [Option.getD_some]
                exact List.mem_append.mpr (Or.inr (by simp [h3]))
              · right; exact ⟨e', he', h1, h2, h3⟩
        · rw [lookupA_appendA, if_neg hs]
          constructor
          · rintro (h | ⟨e', he', h1, h2, h3⟩)
            · exact Or.inl h
            · exact Or.inr ⟨e', by simp [he'], h1, h2, h3⟩
          · rintro (h | ⟨e', he', h1, h2, h3⟩)
            · exact Or.inl h
            · rcases List.mem_cons.mp he' with rfl | he'
              · exact absurd h2 (fun hh => hs hh.symm)
              · exact Or.inr ⟨e', he', h1, h2, h3⟩
      · rw [if_neg hp]
        constructor
        · rintro (h | ⟨e', he', h1, h2, h3⟩)
          · exact Or.inl h
          · exact Or.inr ⟨e', by simp [he'], h1, h2, h3⟩
        · rintro (h | ⟨e', he', h1, h2, h3⟩)
          · exact Or.inl h
          · rcases List.mem_cons.mp he' with rfl | he'
            · exact absurd h1 (by simpa using hp)
            · exact Or.inr ⟨e', he', h1, h2, h3⟩

theorem lookupA_foldl_appendA_dedup {α β : Type} [DecidableEq β] (ks : α → String) (vs : α → β)
    (es : List α) (acc : List (String × List β)) (s : String) (t : β) :
    (t ∈ (lookupA (es.foldl
        (fun d e => if vs e ∈ (lookupA d (ks e)).getD [] then d
          else appendA d (ks e) (vs e)) acc) s).getD []) ↔
      t ∈ (lookupA acc s).getD [] ∨ ∃ e ∈ es, ks e = s ∧ vs e = t := by
  induction es generalizing acc with
  | nil => simp
  | cons e rest ih =>
      rw [List.foldl_cons, ih]
      by_cases hg : vs e ∈ (lookupA acc (ks e)).getD []
      · rw [if_pos hg]
        constructor
        · rintro (h | ⟨e', he', h2, h3⟩)
          · exact Or.inl h
          · exact Or.inr ⟨e', by simp [he'], h2, h3⟩
        · rintro (h | ⟨e', he', h2, h3⟩)
          · exact Or.inl h
          · rcases List.mem_cons.mp he' with rfl | he'
            · left; rw [← h2, ← h3]; exact hg
            · exact Or.inr ⟨e', he', h2, h3⟩
      · rw [if_neg hg]
        by_cases hs : s = ks e
        · subst hs
          rw [lookupA_appendA, if_pos rfl]
          constructor
          · rintro (h | ⟨e', he', h2, h3⟩)
            · simp only [Option.getD_some] at h
              rcases List.mem_append.mp h with h' | h'
              · exact Or.inl h'
              · exact Or.inr ⟨e, by simp, rfl, (List.mem_singleton.mp h').symm⟩
            · exact Or.inr ⟨e', by simp [he'], h2, h3⟩
          · rintro (h | ⟨e', he', h2, h3⟩)
            · left; simp only [Option.getD_some]; exact List.mem_append.mpr (Or.inl h)
            · rcases List.mem_cons.mp he' with rfl | he'
              · left
                simp only [Option.getD_some]
                exact List.mem_append.mpr (Or.inr (by simp [h3]))
              · right; exact ⟨e', he', h2, h3⟩
        · rw [lookupA_appendA, if_neg hs]
          constructor
          · rintro (h | ⟨e', he', h2, h3⟩)
            · exact Or.inl h
            · exact Or.inr ⟨e', by simp [he'], h2, h3⟩
          · rintro (h | ⟨e', he', h2, h3⟩)
            · exact Or.inl h
            · rcases List.mem_cons.mp he' with rfl | he'
              · exact absurd h2 (fun hh => hs hh.symm)
              · exact Or.inr ⟨e', he', h2, h3⟩

theorem str_append_left_cancel {p x y : String} (h : p ++ x = p ++ y) : x = y := by
  have hd : p.data ++ x.data = p.data ++ y.data := by
    have := congrArg String.data h
    simpa [String.data_append] using this
  have h2 := List.append_cancel_left hd
  cases x; cases y
  exact congrArg String.mk h2

theorem str_append_ne_of_data {p q : String} (x y : String)
    (h : ∀ xs ys : List Char, p.data ++ xs = q.data ++ ys → False) :
    p ++ x ≠ q ++ y := by
  intro he
  exact h x.data y.data (by
    have := congrArg String.data he
    simpa [String.data_append] using this)

theorem class_ne_variable (x y : String) : "class" ++ x ≠ "variable" ++ y := by
  apply str_append_ne_of_data
  intro xs ys h
  rw [show "class".data = ['c', 'l', 'a', 's', 's'] from rfl,
    show "variable".data = ['v', 'a', 'r', 'i', 'a', 'b', 'l', 'e'] from rfl] at h
  simp at h

theorem funcdef_ne_function (x y : String) : "funcdef" ++ x ≠ "function" ++ y := by
  apply str_append_ne_of_data
  intro xs ys h
  rw [show "funcdef".data = ['f', 'u', 'n', 'c', 'd', 'e', 'f'] from rfl,
    show "function".data = ['f', 'u', 'n', 'c', 't', 'i', 'o', 'n'] from rfl] at h
  simp at h

theorem funcdecl_ne_function (x y : String) : "funcdecl" ++ x ≠ "function" ++ y := by
  apply str_append_ne_of_data
  intro xs ys h
  rw [show "funcdecl".data = ['f', 'u', 'n', 'c', 'd', 'e', 'c', 'l'] from rfl,
    show "function".data = ['f', 'u', 'n', 'c', 't', 'i', 'o', 'n'] from rfl] at h
  simp at h

theorem macro_ne_function (x y : String) : "macro" ++ x ≠ "function" ++ y := by
  apply str_append_ne_of_data
  intro xs ys h
  rw [show "macro".data = ['m', 'a', 'c', 'r', 'o'] from rfl,
    show "function".data = ['f', 'u', 'n', 'c', 't', 'i', 'o', 'n'] from rfl] at h
  simp at h

theorem mem_mutA {α : Type} {ps : List (String × α)} {k : String} {f : α → α}
    {kv : String × α} (h : kv ∈ mutA ps k f) :
    kv ∈ ps ∨ ∃ v, (kv.1, v) ∈ ps ∧ kv.2 = f v := by
  induction ps with
  | nil => simp [mutA] at h
  | cons kv' rest ih =>
      obtain ⟨k', v'⟩ := kv'
      by_cases h1 : k' = k
      · rcases List.mem_cons.mp (by simpa [mutA, h1] using h) with h2 | h2
        · right; exact ⟨v', by simp [h2, h1], by simp [h2]⟩
        · rcases ih h2 with h3 | h3
          · left; simp [h3]
          · obtain ⟨v, hv1, hv2⟩ := h3
            right; exact ⟨v, by simp [hv1], hv2⟩
      · rcases List.mem_cons.mp (by simpa [mutA, h1] using h) with h2 | h2
        · left; simp [h2]
        · rcases ih h2 with h3 | h3
          · left; simp [h3]
          · obtain ⟨v, hv1, hv2⟩ := h3
            right; exact ⟨v, by simp [hv1], hv2⟩

theorem addLabel_id (n : Node) (l : String) : (addLabel n l).id = n.id := by
  unfold addLabel
  by_cases h : l ∈ n.labels <;> simp [h]

theorem setKind_id (n : Node) (v : String) : (setKind n v).id = n.id := rfl

theorem addLabel_labels_self (n : Node) (l : String) : l ∈ (addLabel n l).labels := by
  unfold addLabel
  by_cases h : l ∈ n.labels <;> simp [h]

theorem addLabel_labels_mono {n : Node} {x : String} (l : String) (h : x ∈ n.labels) :
    x ∈ (addLabel n l).labels := by
  unfold addLabel
  by_cases h' : l ∈ n.labels <;> simp [h', h]

theorem setKind_labels (n : Node) (v : String) : (setKind n v).labels = n.labels := rfl

theorem setKind_kind (n : Node) (v : String) :
    lookupA (setKind n v).props "kind" = some (Value.str v) := by
  unfold setKind
  simp [lookupA_setA]

theorem setKind_other (n : Node) (v : String) (k : String) (h : k ≠ "kind") :
    lookupA (setKind n v).props k = lookupA n.props k := by
  unfold setKind
  simp [lookupA_setA, h]

theorem addLabel_props (n : Node) (l : String) : (addLabel n l).props = n.props := by
  unfold addLabel
  by_cases h : l ∈ n.labels <;> simp [h]

theorem mem_find_edges {g : Graph} {lbl : String} {e : Edge} (h : e ∈ find_edges g lbl) :
    e ∈ g.edges ∧ e.label = lbl := by
  unfold find_edges at h
  have := List.mem_filter.mp h
  exact ⟨this.1, by simpa using this.2⟩

theorem mem_find_nodes {g : Graph} {lbl : String} {n : Node} (h : n ∈ find_nodes g lbl) :
    n ∈ g.nodes ∧ lbl ∈ n.labels := by
  unfold find_nodes at h
  have := List.mem_filter.mp h
  exact ⟨this.1, by simpa using this.2⟩

theorem mem_find_nodes_iff {g : Graph} {lbl : String} {n : Node} :
    n ∈ find_nodes g lbl ↔ n ∈ g.nodes ∧ lbl ∈ n.labels := by
  unfold find_nodes
  simp [List.mem_filter]

theorem mem_targets {g : Graph} {n m : Node} {lbl : String} (h : m ∈ targets g n lbl) :
    m ∈ g.nodes ∧ ∃ e ∈ g.edges, e.label = lbl ∧ e.source = n.id ∧ e.target = m.id := by
  unfold targets at h
  obtain ⟨e, he, hfind⟩ := List.mem_filterMap.mp h
  have he' := List.mem_filter.mp he
  have hm := List.mem_of_find?_eq_some hfind
  have hid : m.id = e.target := by simpa using List.find?_some hfind
  have hcond := he'.2
  simp only [decide_eq_true_eq] at hcond
  exact ⟨hm, e, he'.1, hcond.1, hcond.2, hid.symm⟩

theorem lookupA_ufInit (ids : List String) (x : String) :
    lookupA (ufInit ids) x = if x ∈ ids then some x else none := by
  induction ids with
  | nil => simp [ufInit, lookupA]
  | cons i rest ih =>
      by_cases h : i = x
      · subst h; simp [ufInit, lookupA]
      · have h' : ¬ x = i := fun hh => h hh.symm
        simp only [ufInit, List.map, lookupA, if_neg h, List.mem_cons]
        simp only [ufInit] at ih
        rw [ih]
        by_cases h2 : x ∈ rest <;> simp [h2, h']

theorem ufFind_ufInit (ids : List String) (fuel : Nat) (x : String) :
    ufFind (ufInit ids) fuel x = x := by
  cases fuel with
  | zero => rfl
  | succ n =>
      simp only [ufFind, lookupA_ufInit]
      by_cases h : x ∈ ids <;> simp [h]

theorem compOf_eq_self (g : Graph) (x : String) : compOf g x = x :=
  ufFind_ufInit _ _ _

theorem all_decl_ids_nodup (g : Graph) : (all_decl_ids g).Nodup := by
  unfold all_decl_ids
  exact List.nodup_dedup _

theorem compReps_eq (g : Graph) : compReps g = all_decl_ids g := by
  unfold compReps
  rw [show List.map (compOf g) (all_decl_ids g) = all_decl_ids g from ?_]
  · exact List.dedup_eq_self.mpr (all_decl_ids_nodup g)
  · rw [show List.map (compOf g) (all_decl_ids g)
        = List.map id (all_decl_ids g) from ?_]
    · exact List.map_id _
    · exact List.map_congr_left (fun x _ => compOf_eq_self g x)


theorem p1mapping_lookup (g : Graph) (x : String) :
    lookupA (p1mapping g) x =
      if x ∈ all_decl_ids g then some (p1newId g x) else none := by
  unfold p1mapping
  by_cases h : x ∈ all_decl_ids g
  · rw [if_pos h]
    have hs := lookupA_foldl_setA_self (fun y : String => y)
      (fun y => p1newId g (compOf g y)) (all_decl_ids g) [] x h
      (fun y _ hk => by
        have hyx : y = x := hk
        subst hyx
        rfl)
    simpa [compOf_eq_self] using hs
  · rw [if_neg h]
    have hs := lookupA_foldl_setA_not_mem (fun y : String => y)
      (fun y => p1newId g (compOf g y)) (all_decl_ids g) [] x
      (fun y hy hh => h (hh ▸ hy))
    simpa [compOf_eq_self] using hs

theorem p1newId_inj (g : Graph) {x y : String} (h : p1newId g x = p1newId g y) : x = y := by
  unfold p1newId at h
  by_cases hx : structCrit g x
  · by_cases hy : structCrit g y
    · rw [if_pos hx, if_pos hy] at h
      exact str_append_left_cancel h
    · rw [if_pos hx, if_neg hy] at h
      exact absurd h (class_ne_variable x y)
  · by_cases hy : structCrit g y
    · rw [if_neg hx, if_pos hy] at h
      exact absurd h.symm (class_ne_variable y x)
    · rw [if_neg hx, if_neg hy] at h
      exact str_append_left_cancel h

theorem p1initNode_id (g : Graph) (r : String) : (p1initNode g r).id = p1newId g r := by
  unfold p1initNode p1newId
  by_cases h : structCrit g r <;> simp [h]

theorem p1nodes0_lookup (g : Graph) (r : String) (hr : r ∈ all_decl_ids g) :
    lookupA (p1nodes0 g) (p1newId g r) = some (p1initNode g r) := by
  unfold p1nodes0
  rw [compReps_eq]
  exact lookupA_foldl_setA_self (p1newId g) (p1initNode g) (all_decl_ids g) [] r hr
    (fun y _ hk => by rw [p1newId_inj g hk])

theorem p1nodes0_id (g : Graph) : ∀ kv ∈ p1nodes0 g, kv.2.id = kv.1 := by
  unfold p1nodes0
  exact foldl_inv (fun d => ∀ kv ∈ d, kv.2.id = kv.1)
    (fun d r => setA d (p1newId g r) (p1initNode g r)) (compReps g) []
    (by simp)
    (fun t a _ ht kv hkv => by
      rcases mem_setA hkv with h | h
      · exact ht kv h
      · rw [h]
        exact p1initNode_id g a)

theorem p1childStep_inv (g : Graph) (parentNew : String) (st : P1St) (c : String)
    (hP : P1Inv st) (hpar : (lookupA st.nodes parentNew).isSome) :
    P1Inv (p1childStep g parentNew st c) ∧
      (lookupA (p1childStep g parentNew st c).nodes parentNew).isSome := by
  obtain ⟨hid, hhv, hct⟩ := hP
  rcases hm : lookupA (p1mapping g) c with _ | childNew
  · simp only [p1childStep, hm]
    exact ⟨⟨hid, hhv, hct⟩, hpar⟩
  · rcases hn : lookupA st.nodes childNew with _ | childNode
    · simp only [p1childStep, hm, hn]
      exact ⟨⟨hid, hhv, hct⟩, hpar⟩
    · by_cases hvar : "Variable" ∈ childNode.labels
      · simp only [p1childStep, hm, hn, if_pos hvar]
        refine ⟨⟨?_, ?_, ?_⟩, ?_⟩
        · intro kv hkv
          rcases mem_mutA hkv with h | ⟨v, hv1, hv2⟩
          · exact hid kv h
          · rw [hv2, setKind_id]
            exact hid (kv.1, v) hv1
        · intro e he
          rcases List.mem_append.mp he with he' | he'
          · obtain ⟨hl, n, hn', hvl, hk⟩ := hhv e he'
            refine ⟨hl, ?_⟩
            rw [lookupA_mutA]
            by_cases ht : e.target = childNew
            · rw [if_pos ht]
              have hnc : n = childNode := by
                rw [ht] at hn'
                rw [hn'] at hn
                exact Option.some.inj hn
              subst hnc
              rw [ht] at hn'
              rw [hn']
              exact ⟨setKind n "field", rfl, by rw [setKind_labels]; exact hvl,
                setKind_kind n "field"⟩
            · rw [if_neg ht]
              exact ⟨n, hn', hvl, hk⟩
          · have he2 : e = Edge.mk parentNew childNew "hasVariable" [("metaSrc", renSrc)] := by
              simpa using he'
            subst he2
            refine ⟨rfl, ?_⟩
            rw [lookupA_mutA]
            simp only [if_pos rfl, hn]
            exact ⟨setKind childNode "field", rfl,
              by rw [setKind_labels]; exact hvar, setKind_kind childNode "field"⟩
        · intro e he
          obtain ⟨hl, n, hn', hcl⟩ := hct e he
          refine ⟨hl, ?_⟩
          rw [lookupA_mutA]
          by_cases hs : e.source = childNew
          · rw [if_pos hs]
            have hnc : n = childNode := by
              rw [hs] at hn'
              rw [hn'] at hn
              exact Option.some.inj hn
            subst hnc
            rw [hs] at hn'
            rw [hn']
            exact ⟨setKind n "field", rfl, by rw [setKind_labels]; exact hcl⟩
          · rw [if_neg hs]
            exact ⟨n, hn', hcl⟩
        · rw [lookupA_mutA]
          by_cases hs : parentNew = childNew
          · rw [if_pos hs, hn]
            rfl
          · rw [if_neg hs]
            exact hpar
      · by_cases hstr : "Structure" ∈ childNode.labels
        · simp only [p1childStep, hm, hn, if_neg hvar, if_pos hstr]
          rcases hp : lookupA st.nodes parentNew with _ | pN
          · rw [hp] at hpar
            simp at hpar
          refine ⟨⟨?_, ?_, ?_⟩, ?_⟩
          · intro kv hkv
            rcases mem_mutA hkv with h | ⟨v, hv1, hv2⟩
            · exact hid kv h
            · rw [hv2, addLabel_id]
              exact hid (kv.1, v) hv1
          · intro e he
            obtain ⟨hl, n, hn', hvl, hk⟩ := hhv e he
            refine ⟨hl, ?_⟩
            rw [lookupA_mutA]
            by_cases ht : e.target = parentNew
            · rw [if_pos ht]
              have hnp : n = pN := by
                rw [ht] at hn'
                rw [hn'] at hp
                exact Option.some.inj hp
              subst hnp
              rw [ht] at hn'
              rw [hn']
              refine ⟨addLabel n "Container", rfl, addLabel_labels_mono _ hvl, ?_⟩
              rw [addLabel_props]
              exact hk
            · rw [if_neg ht]
              exact ⟨n, hn', hvl, hk⟩
          · intro e he
            rcases List.mem_append.mp he with he' | he'
            · obtain ⟨hl, n, hn', hcl⟩ := hct e he'
              refine ⟨hl, ?_⟩
              rw [lookupA_mutA]
              by_cases hs : e.source = parentNew
              · rw [if_pos hs]
                have hnp : n = pN := by
                  rw [hs] at hn'
                  rw [hn'] at hp
                  exact Option.some.inj hp
                subst hnp
                rw [hs] at hn'
                rw [hn']
                exact ⟨addLabel n "Container", rfl, addLabel_labels_mono _ hcl⟩
              · rw [if_neg hs]
                exact ⟨n, hn', hcl⟩
            · have he2 : e = Edge.mk parentNew childNew "contains" [("metaSrc", renSrc)] := by
                simpa using he'
              subst he2
              refine ⟨rfl, ?_⟩
              rw [lookupA_mutA]
              simp only [if_pos rfl, hp]
              exact ⟨addLabel pN "Container", rfl, addLabel_labels_self pN "Container"⟩
          · rw [lookupA_mutA, if_pos rfl, hp]
            rfl
        · simp only [p1childStep, hm, hn, if_neg hvar, if_neg hstr]
          exact ⟨⟨hid, hhv, hct⟩, hpar⟩

theorem p1declStep_inv (g : Graph) (st : P1St) (dn : Node) (hP : P1Inv st) :
    P1Inv (p1declStep g st dn) := by
  rcases hm : lookupA (p1mapping g) dn.id with _ | parentNew
  · simpa only [p1declStep, hm] using hP
  · rcases hn : lookupA st.nodes parentNew with _ | pN
    · simpa only [p1declStep, hm, hn] using hP
    · by_cases hstr : "Structure" ∈ pN.labels
      · simp only [p1declStep, hm, hn, if_pos hstr]
        have hfold := foldl_inv
          (fun st' => P1Inv st' ∧ (lookupA st'.nodes parentNew).isSome)
          (p1childStep g parentNew)
          ((targets g dn "CppContains").map Node.id) st
          ⟨hP, by rw [hn]; rfl⟩
          (fun t a _ ht => p1childStep_inv g parentNew t a ht.1 ht.2)
        exact hfold.1
      · simpa only [p1declStep, hm, hn, if_neg hstr] using hP

theorem p1_invariant (g : Graph) : P1Inv (p1afterContains g) := by
  unfold p1afterContains
  exact foldl_inv P1Inv (p1declStep g) (cppDeclNodes g) (P1St.mk (p1nodes0 g) [] [])
    ⟨p1nodes0_id g, by simp, by simp⟩
    (fun t a _ ht => p1declStep_inv g t a ht)

theorem p1specializes_label {g : Graph} {nd : NDict} {e : Edge}
    (h : e ∈ p1specializes g nd) : e.label = "specializes" := by
  unfold p1specializes at h
  obtain ⟨ed, _, hfe⟩ := List.mem_filterMap.mp h
  split at hfe
  · split at hfe
    · split at hfe
      · cases Option.some.inj hfe
        rfl
      · simp at hfe
    · simp at hfe
  · simp at hfe

theorem get_new_node_labels_spec {cm : Smap} {fd nd : NDict} {oldId lbl : String}
    (h : lbl ∈ get_new_node_labels cm fd nd oldId) :
    ∃ nid n, lookupA cm oldId = some nid ∧
      (lookupA fd nid = some n ∨ lookupA nd nid = some n) ∧ lbl ∈ n.labels := by
  unfold get_new_node_labels at h
  split at h
  · simp at h
  next nid heq =>
    split at h
    · simp at h
    · split at h
      next n hfd => exact ⟨nid, n, heq, Or.inl hfd, h⟩
      next hfd =>
        split at h
        next n hnd => exact ⟨nid, n, heq, Or.inr hnd, h⟩
        next => simp at h

theorem p3srcStep_inv (cm : Smap) (fd nd : NDict) (st : P3Src) (e : Edge)
    (hP : P3Inv fd nd st) : P3Inv fd nd (p3srcStep cm fd nd st e) := by
  obtain ⟨hhv, hhs, has⟩ := hP
  unfold p3srcStep
  dsimp only
  split
  · split
    next mainId fileId hS hT =>
      split
      next hv1 =>
        refine ⟨?_, hhs, has⟩
        intro ed hed
        rcases List.mem_append.mp hed with hed' | hed'
        · exact hhv ed hed'
        · have hed2 : ed = Edge.mk fileId mainId "hasVariable" [] := by simpa using hed'
          subst hed2
          obtain ⟨nid, n, hc, hfn, hl⟩ := get_new_node_labels_spec hv1
          rw [hS] at hc
          cases Option.some.inj hc
          exact ⟨rfl, n, hfn, hl⟩
      next =>
        split
        next =>
          refine ⟨hhv, ?_, has⟩
          intro ed hed
          rcases List.mem_append.mp hed with hed' | hed'
          · exact hhs ed hed'
          · have hed2 : ed = Edge.mk fileId mainId "hasScript" [] := by simpa using hed'
            subst hed2
            rfl
        next =>
          split
          next =>
            refine ⟨hhv, hhs, ?_⟩
            intro ed hed
            rcases List.mem_append.mp hed with hed' | hed'
            · exact has ed hed'
            · have hed2 : ed = Edge.mk mainId fileId "association" [] := by simpa using hed'
              subst hed2
              rfl
          next => exact ⟨hhv, hhs, has⟩
    next => exact ⟨hhv, hhs, has⟩
  · split
    · split
      next fileId mainId hS hT =>
        split
        next hv1 =>
          refine ⟨?_, hhs, has⟩
          intro ed hed
          rcases List.mem_append.mp hed with hed' | hed'
          · exact hhv ed hed'
          · have hed2 : ed = Edge.mk fileId mainId "hasVariable" [] := by simpa using hed'
            subst hed2
            obtain ⟨nid, n, hc, hfn, hl⟩ := get_new_node_labels_spec hv1
            rw [hT] at hc
            cases Option.some.inj hc
            exact ⟨rfl, n, hfn, hl⟩
        next =>
          split
          next =>
            refine ⟨hhv, ?_, has⟩
            intro ed hed
            rcases List.mem_append.mp hed with hed' | hed'
            · exact hhs ed hed'
            · have hed2 : ed = Edge.mk fileId mainId "hasScript" [] := by simpa using hed'
              subst hed2
              rfl
          next =>
            split
            next =>
              refine ⟨hhv, hhs, ?_⟩
              intro ed hed
              rcases List.mem_append.mp hed with hed' | hed'
              · exact has ed hed'
              · have hed2 : ed = Edge.mk mainId fileId "association" [] := by simpa using hed'
                subst hed2
                rfl
            next => exact ⟨hhv, hhs, has⟩
      next => exact ⟨hhv, hhs, has⟩
    · exact ⟨hhv, hhs, has⟩

theorem p3fileStep_pres (kind : String) (o : Option P3Files) (n : Node)
    (h : ∀ st, o = some st → ∀ kv ∈ st.fd, kv.2.id = kv.1) :
    ∀ st, p3fileStep kind o n = some st → ∀ kv ∈ st.fd, kv.2.id = kv.1 := by
  intro st hst kv hkv
  unfold p3fileStep at hst
  split at hst
  · exact Option.noConfusion hst
  next st0 =>
    split at hst
    · exact Option.noConfusion hst
    next ps hps =>
      cases Option.some.inj hst
      rcases mem_setA hkv with hm | hm
      · exact h st0 rfl kv hm
      · rw [hm]

theorem p3files_fd_id (g : Graph) (ex : Smap) :
    ∀ out, p3files g ex = some out → ∀ kv ∈ out.fd, kv.2.id = kv.1 := by
  unfold p3files
  have base : ∀ st, (some (P3Files.mk [] ex) : Option P3Files) = some st →
      ∀ kv ∈ st.fd, kv.2.id = kv.1 := by
    intro st hst kv hkv
    cases Option.some.inj hst
    simp at hkv
  have h1 := foldl_inv (fun o => ∀ st, o = some st → ∀ kv ∈ st.fd, kv.2.id = kv.1)
    (p3fileStep "source file") (find_nodes g "SourceFile") (some (P3Files.mk [] ex)) base
    (fun t a _ ht => p3fileStep_pres "source file" t a ht)
  have h2 := foldl_inv (fun o => ∀ st, o = some st → ∀ kv ∈ st.fd, kv.2.id = kv.1)
    (p3fileStep "header file") (find_nodes g "HeaderFile") _ h1
    (fun t a _ ht => p3fileStep_pres "header file" t a ht)
  exact foldl_inv (fun o => ∀ st, o = some st → ∀ kv ∈ st.fd, kv.2.id = kv.1)
    (p3fileStep "other file") (find_nodes g "OtherFile") _ h2
    (fun t a _ ht => p3fileStep_pres "other file" t a ht)

theorem ndict_of_list_spec (nl : List Node) :
    ∀ kv ∈ nl.foldl (fun d n => setA d n.id n) [], kv.2.id = kv.1 ∧ kv.2 ∈ nl := by
  exact foldl_inv (fun d => ∀ kv ∈ d, kv.2.id = kv.1 ∧ kv.2 ∈ nl)
    (fun d n => setA d n.id n) nl []
    (by simp)
    (fun t a ha ht kv hkv => by
      rcases mem_setA hkv with hm | hm
      · exact ht kv hm
      · rw [hm]
        exact ⟨rfl, ha⟩)

theorem p3pairStep_mem {cm : Smap} {fd : NDict} {acc : List Edge} {kv : String × List String}
    {e : Edge} (h : e ∈ p3pairStep cm fd acc kv) : e ∈ acc ∨ e.label = "association" := by
  unfold p3pairStep at h
  rcases List.mem_append.mp h with h' | h'
  · exact Or.inl h'
  · right
    obtain ⟨s, _, hm⟩ := List.mem_flatMap.mp h'
    obtain ⟨t, _, he⟩ := List.mem_map.mp hm
    rw [← he]

theorem p3uses_label {g : Graph} {cm : Smap} {fd : NDict} {e : Edge}
    (h : e ∈ p3uses g cm fd) : e.label = "uses" := by
  unfold p3uses at h
  obtain ⟨ed, _, hfe⟩ := List.mem_filterMap.mp h
  split at hfe
  next =>
    split at hfe
    · cases Option.some.inj hfe
      rfl
    · exact Option.noConfusion hfe
  next => exact Option.noConfusion hfe

theorem p3_hv_variable (g : Graph) (ex : Smap) (nl : List Node)
    (out : List Node × List Edge × Smap)
    (h : collect_files_and_associations g ex nl = some out) :
    ∀ e ∈ out.2.1, e.label = "hasVariable" →
      ∃ n ∈ (out.1 ++ nl), n.id = e.target ∧ "Variable" ∈ n.labels := by
  intro e he hl
  unfold collect_files_and_associations at h
  split at h
  · exact Option.noConfusion h
  next fst hf =>
    cases Option.some.inj h
    have hinv := foldl_inv (P3Inv fst.fd (nl.foldl (fun d n => setA d n.id n) []))
      (p3srcStep fst.cm fst.fd (nl.foldl (fun d n => setA d n.id n) []))
      (find_edges g "Source") (P3Src.mk [] [] [] [])
      ⟨by simp, by simp, by simp⟩
      (fun t a _ ht => p3srcStep_inv fst.cm fst.fd _ t a ht)
    set nd := nl.foldl (fun d n => setA d n.id n) [] with hnd
    set src := (find_edges g "Source").foldl (p3srcStep fst.cm fst.fd nd) (P3Src.mk [] [] [] [])
      with hsrc
    obtain ⟨ihv, ihs, ias⟩ := hinv
    have hassoc2 : ∀ ed ∈ src.vf.foldl (p3pairStep fst.cm fst.fd) src.assoc,
        ed.label = "association" := by
      apply foldl_inv (fun l => ∀ ed ∈ l, ed.label = "association")
        (p3pairStep fst.cm fst.fd) src.vf src.assoc ias
      intro t a _ ht ed hed
      rcases p3pairStep_mem hed with hm | hm
      · exact ht ed hm
      · exact hm
    simp only at he
    rcases List.mem_append.mp he with he1 | he4
    · rcases List.mem_append.mp he1 with he2 | he3
      · rcases List.mem_append.mp he2 with hhv | hhs
        · obtain ⟨_, n, hfn, hvl⟩ := ihv e hhv
          rcases hfn with hfd | hnd'
          · have hmem := lookupA_mem hfd
            have hfid := p3files_fd_id g ex fst hf (e.target, n) hmem
            exact ⟨n, List.mem_append.mpr (Or.inl (List.mem_map.mpr ⟨(e.target, n), hmem, rfl⟩)),
              hfid, hvl⟩
          · have hmem := lookupA_mem hnd'
            have hspec := ndict_of_list_spec nl (e.target, n) hmem
            exact ⟨n, List.mem_append.mpr (Or.inr hspec.2), hspec.1, hvl⟩
        · have := ihs e hhs
          rw [hl] at this
          exact absurd this (by decide)
      · have := hassoc2 e he3
        rw [hl] at this
        exact absurd this (by decide)
    · have := p3uses_label he4
      rw [hl] at this
      exact absurd this (by decide)

theorem p5_mut_pres (t : P5St) (newF newE : String) (hP : P5Inv t) :
    P5Inv (match lookupA t.nd newF, lookupA t.nd newE with
      | some fN, some eN =>
          if "Structure" ∈ fN.labels ∧ "Structure" ∈ eN.labels then
            P5St.mk (mutA t.nd newF (fun n => addLabel n "Container"))
              (t.out ++ [Edge.mk newF newE "contains" []])
          else t
      | _, _ => t) := by
  obtain ⟨hid, hout⟩ := hP
  split
  next fN eN hF hE =>
    split
    next hstr =>
      refine ⟨?_, ?_⟩
      · intro kv hkv
        rcases mem_mutA hkv with hm | ⟨v, hv1, hv2⟩
        · exact hid kv hm
        · rw [hv2, addLabel_id]
          exact hid (kv.1, v) hv1
      · intro e he
        rcases List.mem_append.mp he with he' | he'
        · obtain ⟨hl, n, hn', hcl⟩ := hout e he'
          refine ⟨hl, ?_⟩
          rw [lookupA_mutA]
          by_cases hs : e.source = newF
          · rw [if_pos hs]
            have hnf : n = fN := by
              rw [hs] at hn'
              rw [hn'] at hF
              exact Option.some.inj hF
            subst hnf
            rw [hs] at hn'
            rw [hn']
            exact ⟨addLabel n "Container", rfl, addLabel_labels_mono _ hcl⟩
          · rw [if_neg hs]
            exact ⟨n, hn', hcl⟩
        · have he2 : e = Edge.mk newF newE "contains" [] := by simpa using he'
          subst he2
          refine ⟨rfl, ?_⟩
          rw [lookupA_mutA, if_pos rfl, hF]
          exact ⟨addLabel fN "Container", rfl, addLabel_labels_self fN "Container"⟩
    next => exact ⟨hid, hout⟩
  next => exact ⟨hid, hout⟩

theorem p5step_inv (cm : Smap) (st : P5St) (pe : Edge × Edge) (hP : P5Inv st) :
    P5Inv (p5step cm st pe) := by
  obtain ⟨hid, hout⟩ := hP
  unfold p5step
  dsimp only
  split
  next newE newF newD h1 h2 h3 =>
    apply p5_mut_pres
    split
    next dN eN hD hE =>
      split
      next hcont =>
        refine ⟨hid, ?_⟩
        intro e he
        rcases List.mem_append.mp he with he' | he'
        · exact hout e he'
        · have he2 : e = Edge.mk newD newE "contains" [] := by simpa using he'
          subst he2
          exact ⟨rfl, dN, hD, hcont.1⟩
      next => exact ⟨hid, hout⟩
    next => exact ⟨hid, hout⟩
  next => exact ⟨hid, hout⟩

theorem p5_contains (g : Graph) (ex : Smap) (nl : List Node) :
    ∀ e ∈ (link_source_parentfolder_structures g ex nl).2, e.label = "contains" ∧
      ∃ n ∈ (link_source_parentfolder_structures g ex nl).1.map Prod.snd,
        n.id = e.source ∧ "Container" ∈ n.labels := by
  intro e he
  unfold link_source_parentfolder_structures at he ⊢
  dsimp only at he ⊢
  have hinv := foldl_inv P5Inv (p5step ex) (find_paths g "Source" "ParentFolder")
    (P5St.mk (nl.foldl (fun d n => setA d n.id n) []) [])
    ⟨fun kv hkv => (ndict_of_list_spec nl kv hkv).1, by simp⟩
    (fun t a _ ht => p5step_inv ex t a ht)
  obtain ⟨hid, hout⟩ := hinv
  obtain ⟨hl, n, hn', hcl⟩ := hout e he
  have hmem := lookupA_mem hn'
  exact ⟨hl, n, List.mem_map.mpr ⟨(e.source, n), hmem, rfl⟩, hid _ hmem, hcl⟩

theorem p1edges_decomp (g : Graph) : p1edges g =
    (p1afterContains g).hv ++ ((p1afterContains g).ct ++
      p1specializes g (p1afterContains g).nodes) := by
  unfold p1edges collect_structures_and_variables
  simp [List.append_assoc]

/-- C1 (amended): every hasVariable edge produced by pass 1 targets a node
that carries label Variable and has kind field in the pass-1 node list; every
hasVariable edge produced by pass 3 targets a node carrying label Variable in
the file dictionary or the prior-pass node list (its kind is not forced to
field there). -/
theorem c1_hasVariable_targets (g : Graph) :
    (∀ e ∈ p1edges g, e.label = "hasVariable" →
       ∃ n ∈ p1nodes g, n.id = e.target ∧ "Variable" ∈ n.labels ∧
         lookupA n.props "kind" = some (Value.str "field")) ∧
    (∀ ex nl out, collect_files_and_associations g ex nl = some out →
       ∀ e ∈ out.2.1, e.label = "hasVariable" →
         ∃ n ∈ (out.1 ++ nl), n.id = e.target ∧ "Variable" ∈ n.labels) := by
  constructor
  · intro e he hl
    obtain ⟨hid, hhv, hct⟩ := p1_invariant g
    rw [p1edges_decomp] at he
    rcases List.mem_append.mp he with h1 | h23
    · obtain ⟨_, n, hn', hvl, hk⟩ := hhv e h1
      have hmem := lookupA_mem hn'
      exact ⟨n, List.mem_map.mpr ⟨(e.target, n), hmem, rfl⟩, hid _ hmem, hvl, hk⟩
    · rcases List.mem_append.mp h23 with h2 | h3
      · have hc := (hct e h2).1
        rw [hl] at hc
        exact absurd hc (by decide)
      · have hc := p1specializes_label h3
        rw [hl] at hc
        exact absurd hc (by decide)
  · intro ex nl out hout
    exact p3_hv_variable g ex nl out hout

/-- C1 counterexample: on this input the final pipeline output contains a
hasVariable edge whose target node has kind variable, not field (the
pass-3 inversion of a Source edge does not set kind to field). -/
theorem c1_counterexample :
    ∃ e ∈ ((mainPipeline cxGraphC1).getD gEmpty).edges, e.label = "hasVariable" ∧
      ∀ n ∈ ((mainPipeline cxGraphC1).getD gEmpty).nodes, n.id = e.target →
        lookupA n.props "kind" ≠ some (Value.str "field") := by decide

/-- C1 witness: the amended theorem applied to a concrete class containing a
member variable. -/
theorem c1_witness :
    ∃ n ∈ p1nodes wGraphP1, n.id = "variablem" ∧ "Variable" ∈ n.labels ∧
      lookupA n.props "kind" = some (Value.str "field") :=
  (c1_hasVariable_targets wGraphP1).1
    (Edge.mk "classk" "variablem" "hasVariable" [("metaSrc", renSrc)]) (by decide) rfl

/-- C2 (amended): every contains edge produced by pass 1 has a source node
carrying label Container in the pass-1 node list, and every contains edge
produced by pass 5 has a source node carrying label Container in the updated
node dictionary; pass-4 contains edges carry no such guarantee. -/
theorem c2_contains_sources (g : Graph) :
    (∀ e ∈ p1edges g, e.label = "contains" →
       ∃ n ∈ p1nodes g, n.id = e.source ∧ "Container" ∈ n.labels) ∧
    (∀ ex nl, ∀ e ∈ (link_source_parentfolder_structures g ex nl).2,
       ∃ n ∈ (link_source_parentfolder_structures g ex nl).1.map Prod.snd,
         n.id = e.source ∧ "Container" ∈ n.labels) := by
  constructor
  · intro e he hl
    obtain ⟨hid, hhv, hct⟩ := p1_invariant g
    rw [p1edges_decomp] at he
    rcases List.mem_append.mp he with h1 | h23
    · have hc := (hhv e h1).1
      rw [hl] at hc
      exact absurd hc (by decide)
    · rcases List.mem_append.mp h23 with h2 | h3
      · obtain ⟨n, hn', hcl⟩ := (hct e h2).2
        have hmem := lookupA_mem hn'
        exact ⟨n, List.mem_map.mpr ⟨(e.source, n), hmem, rfl⟩, hid _ hmem, hcl⟩
      · have hc := p1specializes_label h3
        rw [hl] at hc
        exact absurd hc (by decide)
  · intro ex nl e he
    exact (p5_contains g ex nl e he).2

/-- C2 counterexample: a ParentFolder edge between two Structure-classified
declarations is inverted by pass 4 into a contains edge whose source and
target are both Structures while the source never receives label Container. -/
theorem c2_counterexample :
    ∃ e ∈ ((mainPipeline cxGraphC2).getD gEmpty).edges, e.label = "contains" ∧
      (∃ ns ∈ ((mainPipeline cxGraphC2).getD gEmpty).nodes, ns.id = e.source ∧
        "Structure" ∈ ns.labels ∧ "Container" ∉ ns.labels) ∧
      (∃ nt ∈ ((mainPipeline cxGraphC2).getD gEmpty).nodes, nt.id = e.target ∧
        "Structure" ∈ nt.labels) := by decide

/-- C2 witness: the amended theorem applied to a concrete nested class. -/
theorem c2_witness :
    ∃ n ∈ p1nodes wGraphP1, n.id = "classk" ∧ "Container" ∈ n.labels :=
  (c2_contains_sources wGraphP1).1
    (Edge.mk "classk" "classj" "contains" [("metaSrc", renSrc)]) (by decide) rfl

theorem p1childStep_ct_ne (g : Graph) (parentNew : String) (st : P1St) (c : String)
    (hprev : ∀ e ∈ st.ct, e.source ≠ e.target)
    (hne : ∀ cn, lookupA (p1mapping g) c = some cn → parentNew ≠ cn) :
    ∀ e ∈ (p1childStep g parentNew st c).ct, e.source ≠ e.target := by
  intro e he
  unfold p1childStep at he
  split at he
  · exact hprev e he
  next childNew hm =>
    split at he
    · exact hprev e he
    next childNode hn =>
      split at he
      · exact hprev e he
      · split at he
        · rcases List.mem_append.mp he with he' | he'
          · exact hprev e he'
          · have he2 : e = Edge.mk parentNew childNew "contains" [("metaSrc", renSrc)] := by
              simpa using he'
            subst he2
            exact hne childNew hm
        · exact hprev e he

theorem p1declStep_ct_ne (g : Graph) (st : P1St) (dn : Node)
    (hno : ∀ e ∈ find_edges g "CppContains", e.source ≠ e.target)
    (hprev : ∀ e ∈ st.ct, e.source ≠ e.target) :
    ∀ e ∈ (p1declStep g st dn).ct, e.source ≠ e.target := by
  intro e he
  unfold p1declStep at he
  split at he
  · exact hprev e he
  next parentNew hm =>
    split at he
    · exact hprev e he
    next pN hn =>
      split at he
      · have hparent : dn.id ∈ all_decl_ids g ∧ parentNew = p1newId g dn.id := by
          have hml := p1mapping_lookup g dn.id
          rw [hm] at hml
          by_cases hmem : dn.id ∈ all_decl_ids g
          · rw [if_pos hmem] at hml
            exact ⟨hmem, Option.some.inj hml⟩
          · rw [if_neg hmem] at hml
            exact Option.noConfusion hml
        have hfold := foldl_inv (fun st' => ∀ e ∈ st'.ct, e.source ≠ e.target)
          (p1childStep g parentNew)
          ((targets g dn "CppContains").map Node.id) st hprev
          (fun t a ha ht => by
            apply p1childStep_ct_ne g parentNew t a ht
            intro cn hcn
            obtain ⟨m, hmA, hmid⟩ := List.mem_map.mp ha
            obtain ⟨hmn, e0, he0, hl0, hs0, ht0⟩ := mem_targets hmA
            have he0' : e0 ∈ find_edges g "CppContains" := by
              unfold find_edges
              exact List.mem_filter.mpr ⟨he0, by simp [hl0]⟩
            have hda : dn.id ≠ a := by
              intro hh
              apply hno e0 he0'
              rw [hs0, ht0, hmid]
              exact hh
            have hcn' := p1mapping_lookup g a
            rw [hcn] at hcn'
            by_cases hamem : a ∈ all_decl_ids g
            · rw [if_pos hamem] at hcn'
              have hcne : cn = p1newId g a := Option.some.inj hcn'
              rw [hparent.2, hcne]
              intro heq
              exact hda (p1newId_inj g heq)
            · rw [if_neg hamem] at hcn'
              exact Option.noConfusion hcn')
        exact hfold e he
      · exact hprev e he

/-- C5 (amended): contains edges produced by pass 1 are never self-loops as
long as the original graph has no self CppContains edge; passes 4 and 5 can
emit contains self-loops whenever an old edge's mapped endpoints coincide
(no pass checks source against target for contains edges). -/
theorem c5_no_self_contains (g : Graph)
    (hno : ∀ e ∈ find_edges g "CppContains", e.source ≠ e.target) :
    ∀ e ∈ p1edges g, e.label = "contains" → e.source ≠ e.target := by
  intro e he hl
  rw [p1edges_decomp] at he
  obtain ⟨_, hhv, hct⟩ := p1_invariant g
  rcases List.mem_append.mp he with h1 | h23
  · have hc := (hhv e h1).1
    rw [hl] at hc
    exact absurd hc (by decide)
  · rcases List.mem_append.mp h23 with h2 | h3
    · have hfold := foldl_inv (fun st' => ∀ e ∈ st'.ct, e.source ≠ e.target)
        (p1declStep g) (cppDeclNodes g) (P1St.mk (p1nodes0 g) [] [])
        (by simp)
        (fun t a _ ht => p1declStep_ct_ne g t a hno ht)
      exact hfold e h2
    · have hc := p1specializes_label h3
      rw [hl] at hc
      exact absurd hc (by decide)

/-- C5 counterexample: a self ParentFolder edge on a folder yields a contains
self-loop in the final output graph. -/
theorem c5_counterexample :
    ∃ e ∈ ((mainPipeline cxGraphC5).getD gEmpty).edges,
      e.label = "contains" ∧ e.source = e.target := by decide

/-- C5 witness: the amended theorem applied to a concrete nested class. -/
theorem c5_witness :
    (∀ e ∈ find_edges wGraphP1 "CppContains", e.source ≠ e.target) ∧
    (∀ e ∈ p1edges wGraphP1, e.label = "contains" → e.source ≠ e.target) :=
  ⟨by decide, c5_no_self_contains wGraphP1 (by decide)⟩

/-- C10: with the alias-union step never invoked, every union-find component
is the singleton of its own id, the pass-1 mapping sends each declaration or
forward-declaration id X to class-prefixed X when classified Structure and
variable-prefixed X otherwise, and distinct old ids receive distinct new
ids. -/
theorem c10_singleton_mapping (g : Graph) (x : String) (hx : x ∈ all_decl_ids g) :
    compOf g x = x ∧
    lookupA (p1mapping g) x =
      some (if structCrit g x then "class" ++ x else "variable" ++ x) ∧
    (∀ y ∈ all_decl_ids g, y ≠ x →
      lookupA (p1mapping g) y ≠ lookupA (p1mapping g) x) := by
  refine ⟨compOf_eq_self g x, ?_, ?_⟩
  · rw [p1mapping_lookup, if_pos hx]
    rfl
  · intro y hy hne heq
    rw [p1mapping_lookup, if_pos hy, p1mapping_lookup, if_pos hx] at heq
    exact hne (p1newId_inj g (Option.some.inj heq))

/-- C10 witness: the mapping facts evaluated on a concrete graph. -/
theorem c10_witness :
    "k" ∈ all_decl_ids wGraphP1 ∧
    (compOf wGraphP1 "k" = "k" ∧
     lookupA (p1mapping wGraphP1) "k" =
       some (if structCrit wGraphP1 "k" then "class" ++ "k" else "variable" ++ "k") ∧
     (∀ y ∈ all_decl_ids wGraphP1, y ≠ "k" →
       lookupA (p1mapping wGraphP1) y ≠ lookupA (p1mapping wGraphP1) "k")) :=
  ⟨by decide, c10_singleton_mapping wGraphP1 "k" (by decide)⟩


theorem firstSome_none {α : Type} (a : Option α) : firstSome a none = a := by
  cases a <;> rfl

theorem lookupA_split {α : Type} {ps : List (String × α)} {k : String} {v : α}
    (h : lookupA ps k = some v) :
    ∃ l1 l2, ps = l1 ++ (k, v) :: l2 ∧ k ∉ keysA l1 := by
  induction ps with
  | nil => simp [lookupA] at h
  | cons kv rest ih =>
      obtain ⟨k', v'⟩ := kv
      by_cases h1 : k' = k
      · subst h1
        have hv : v' = v := by simpa [lookupA] using h
        subst hv
        exact ⟨[], rest, rfl, by simp [keysA]⟩
      · simp only [lookupA, if_neg h1] at h
        obtain ⟨l1, l2, heq, hni⟩ := ih h
        refine ⟨(k', v') :: l1, l2, by rw [heq]; rfl, ?_⟩
        simp only [keysA, List.map, List.mem_cons] at hni ⊢
        exact fun hh => hh.elim (fun hh' => h1 hh'.symm) hni

theorem lookupA_updateA_not_mem {α : Type} (b o : List (String × α)) (k : String)
    (h : lookupA o k = none) : lookupA (updateA b o) k = lookupA b k := by
  unfold updateA
  apply foldl_inv (fun d => lookupA d k = lookupA b k) _ o b rfl
  intro t a ha ht
  rw [lookupA_setA]
  by_cases hk : k = a.1
  · exfalso
    exact lookupA_none_not_mem_keys.mp h (by rw [hk]; exact List.mem_map.mpr ⟨a, ha, rfl⟩)
  · rw [if_neg hk]
    exact ht

theorem lookupA_updateA_mem {α : Type} (b o : List (String × α)) (k : String) (v : α)
    (hn : (keysA o).Nodup) (h : lookupA o k = some v) :
    lookupA (updateA b o) k = some v := by
  obtain ⟨l1, l2, heq, hni⟩ := lookupA_split h
  subst heq
  unfold updateA
  rw [List.foldl_append, List.foldl_cons]
  have hkl2 : k ∉ keysA l2 := by
    simp only [keysA, List.map_append, List.map, List.nodup_append] at hn
    have h2 := hn.2.1
    simp only [List.nodup_cons] at h2
    exact h2.1
  have hs := lookupA_foldl_setA_not_mem (fun a : String × α => a.1)
    (fun a : String × α => a.2) l2
    (setA (l1.foldl (fun b kv => setA b kv.1 kv.2) b) k v) k
    (fun a ha hh => hkl2 (hh ▸ List.mem_map.mpr ⟨a, ha, rfl⟩))
  rw [show (fun (b : List (String × α)) (kv : String × α) => setA b kv.1 kv.2) =
    (fun d (x : String × α) => setA d x.1 x.2) from rfl]
  rw [hs, lookupA_setA, if_pos rfl]

theorem lookupA_updateA {α : Type} (b o : List (String × α)) (k : String)
    (hn : (keysA o).Nodup) :
    lookupA (updateA b o) k = firstSome (lookupA o k) (lookupA b k) := by
  rcases h : lookupA o k with _ | v
  · rw [lookupA_updateA_not_mem b o k h]
    rfl
  · rw [lookupA_updateA_mem b o k v hn h]
    rfl

theorem lookupA_renameA (ps : Props) (o n : String) (hon : o ≠ n) (j : String) :
    lookupA (renameA ps o n) j =
      if j = n then firstSome (lookupA ps o) (lookupA ps n)
      else if j = o then none
      else lookupA ps j := by
  unfold renameA
  rcases ho : lookupA ps o with _ | v
  · by_cases hjn : j = n
    · subst hjn
      simp [ho, firstSome]
    · by_cases hjo : j = o
      · subst hjo
        simp [ho, hjn]
      · simp [hjn, hjo]
  · rw [lookupA_setA]
    by_cases hjn : j = n
    · subst hjn
      simp [ho, firstSome]
    · rw [if_neg hjn, if_neg hjn, lookupA_popA]

/-- C7 (amended): for dictionaries whose keys avoid the reserved result keys
simpleName, qualifiedName and metaSrc, the merge keeps every definition
binding, fills gaps from the declaration, renames symbol to simpleName and
name to qualifiedName with the same precedence, drops the symbol and name
keys, and stamps metaSrc renaissance; the claim's concrete instance holds
exactly.  When a dictionary already uses a reserved key, the renaming can
override it, so the unrestricted claim fails. -/
theorem c7_merge_properties (dp cp : Props)
    (hnod : (keysA dp).Nodup)
    (hres : "simpleName" ∉ keysA dp ∧ "simpleName" ∉ keysA cp ∧
      "qualifiedName" ∉ keysA dp ∧ "qualifiedName" ∉ keysA cp ∧
      "metaSrc" ∉ keysA dp ∧ "metaSrc" ∉ keysA cp) :
    (∀ k, k ≠ "symbol" → k ≠ "name" → k ≠ "simpleName" → k ≠ "qualifiedName" →
      k ≠ "metaSrc" →
      lookupA (merge_properties dp cp) k = firstSome (lookupA dp k) (lookupA cp k)) ∧
    lookupA (merge_properties dp cp) "metaSrc" = some renSrc ∧
    lookupA (merge_properties dp cp) "symbol" = none ∧
    lookupA (merge_properties dp cp) "name" = none ∧
    lookupA (merge_properties dp cp) "simpleName" =
      firstSome (lookupA dp "symbol") (lookupA cp "symbol") ∧
    lookupA (merge_properties dp cp) "qualifiedName" =
      firstSome (lookupA dp "name") (lookupA cp "name") ∧
    merge_properties [("a", Value.num 1), ("b", Value.num 2)]
        [("b", Value.num 9), ("c", Value.num 3)] =
      [("b", Value.num 2), ("c", Value.num 3), ("a", Value.num 1), ("metaSrc", renSrc)] := by
  obtain ⟨hr1, hr2, hr3, hr4, hr5, hr6⟩ := hres
  have hU : ∀ k, lookupA (updateA cp dp) k = firstSome (lookupA dp k) (lookupA cp k) :=
    fun k => lookupA_updateA cp dp k hnod
  have hUsn : lookupA (updateA cp dp) "simpleName" = none := by
    rw [hU, lookupA_none_not_mem_keys.mpr hr1, lookupA_none_not_mem_keys.mpr hr2]
    rfl
  have hUqn : lookupA (updateA cp dp) "qualifiedName" = none := by
    rw [hU, lookupA_none_not_mem_keys.mpr hr3, lookupA_none_not_mem_keys.mpr hr4]
    rfl
  have hM : ∀ j, lookupA (merge_properties dp cp) j =
      if j = "metaSrc" then some renSrc
      else if j = "qualifiedName" then
        firstSome (lookupA (renameA (updateA cp dp) "symbol" "simpleName") "name")
          (lookupA (renameA (updateA cp dp) "symbol" "simpleName") "qualifiedName")
      else if j = "name" then none
      else lookupA (renameA (updateA cp dp) "symbol" "simpleName") j := by
    intro j
    unfold merge_properties
    rw [lookupA_setA]
    by_cases hj : j = "metaSrc"
    · rw [if_pos hj, if_pos hj]
    · rw [if_neg hj, if_neg hj, lookupA_renameA _ _ _ (by decide)]
  refine ⟨?_, ?_, ?_, ?_, ?_, ?_, by decide⟩
  · intro k h1 h2 h3 h4 h5
    rw [hM, if_neg h5, if_neg h4, if_neg h2,
      lookupA_renameA _ _ _ (by decide), if_neg h3, if_neg h1]
    exact hU k
  · rw [hM, if_pos rfl]
  · rw [hM, if_neg (by decide), if_neg (by decide), if_neg (by decide),
      lookupA_renameA _ _ _ (by decide), if_neg (by decide), if_pos rfl]
  · rw [hM, if_neg (by decide), if_neg (by decide), if_pos rfl]
  · rw [hM, if_neg (by decide), if_neg (by decide), if_neg (by decide),
      lookupA_renameA _ _ _ (by decide), if_pos rfl, hUsn, firstSome_none]
    exact hU "symbol"
  · rw [hM, if_neg (by decide), if_pos rfl,
      lookupA_renameA _ _ _ (by decide), if_neg (by decide), if_neg (by decide),
      lookupA_renameA _ _ _ (by decide), if_neg (by decide), if_neg (by decide),
      hUqn, firstSome_none]
    exact hU "name"

/-- C7 counterexample: merging a definition that already carries simpleName
with a declaration carrying symbol lets the symbol renaming override the
definition's simpleName value, so the merged dictionary does not contain
every definition key with the definition's value. -/
theorem c7_counterexample :
    lookupA (merge_properties [("simpleName", Value.str "d")] [("symbol", Value.str "s")])
      "simpleName" = some (Value.str "s") ∧
    Value.str "s" ≠ Value.str "d" := by decide

/-- C7 witness: the amended merge facts applied at the claim's concrete
instance. -/
theorem c7_witness :
    lookupA (merge_properties [("a", Value.num 1), ("b", Value.num 2)]
      [("b", Value.num 9), ("c", Value.num 3)]) "metaSrc" = some renSrc :=
  (c7_merge_properties [("a", Value.num 1), ("b", Value.num 2)]
    [("b", Value.num 9), ("c", Value.num 3)] (by decide)
    ⟨by decide, by decide, by decide, by decide, by decide, by decide⟩).2.1

/-- C8 (amended): with a string-valued name, qualifiedName is the full value
and simpleName is the last slash-delimited segment of the
backslash-normalized path when that segment is nonempty, and the whole
normalized path when the path ends in a slash (Python's or-fallback); with
no name, a truthy symbol value fills both fields, and otherwise a non-empty
supplied old id fills both fields. -/
theorem c8_parse_path :
    (∀ ps old p, lookupA ps "name" = some (Value.str p) →
      ∃ out, parse_path_as_name ps old = some out ∧
        lookupA out "qualifiedName" = some (Value.str p) ∧
        lookupA out "simpleName" =
          some (Value.str (if lastSegSpec p = "" then normSlashes p else lastSegSpec p))) ∧
    (∀ ps old sv, lookupA ps "name" = none → lookupA ps "symbol" = some sv →
      sv.truthy = true →
      ∃ out, parse_path_as_name ps old = some out ∧
        lookupA out "simpleName" = some sv ∧ lookupA out "qualifiedName" = some sv) ∧
    (∀ ps s, lookupA ps "name" = none →
      (∀ sv, lookupA ps "symbol" = some sv → sv.truthy = false) → s ≠ "" →
      ∃ out, parse_path_as_name ps (some s) = some out ∧
        lookupA out "simpleName" = some (Value.str s) ∧
        lookupA out "qualifiedName" = some (Value.str s)) := by
  refine ⟨?_, ?_, ?_⟩
  · intro ps old p hname
    refine ⟨setA (setA (setA (popA (popA ps "name") "symbol") "qualifiedName" (Value.str p))
        "simpleName" (Value.str (lastSegOr p))) "metaSrc" renSrc, ?_, ?_, ?_⟩
    · simp only [parse_path_as_name, hname]
    · rw [lookupA_setA, if_neg (by decide), lookupA_setA, if_neg (by decide),
        lookupA_setA, if_pos rfl]
    · rw [lookupA_setA, if_neg (by decide), lookupA_setA, if_pos rfl]
      rfl
  · intro ps old sv hname hsym htruthy
    refine ⟨setA (setA (setA (popA (popA ps "name") "symbol") "simpleName" sv)
        "qualifiedName" sv) "metaSrc" renSrc, ?_, ?_, ?_⟩
    · simp only [parse_path_as_name, hname, hsym, htruthy, if_pos]
    · rw [lookupA_setA, if_neg (by decide), lookupA_setA, if_neg (by decide),
        lookupA_setA, if_pos rfl]
    · rw [lookupA_setA, if_neg (by decide), lookupA_setA, if_pos rfl]
  · intro ps s hname hsym hs
    have hfb : parse_path_as_name ps (some s) =
        some (parseFallbackOld (popA (popA ps "name") "symbol") (some s)) := by
      rcases hsv : lookupA ps "symbol" with _ | sv
      · simp only [parse_path_as_name, hname, hsv]
      · have ht := hsym sv hsv
        simp only [parse_path_as_name, hname, hsv, ht]
        rfl
    refine ⟨parseFallbackOld (popA (popA ps "name") "symbol") (some s), hfb, ?_, ?_⟩
    · unfold parseFallbackOld
      dsimp only
      rw [lookupA_setA, if_neg (by decide), lookupA_setA, if_neg (by decide),
        lookupA_setA, if_pos rfl, if_neg hs]
    · unfold parseFallbackOld
      dsimp only
      rw [lookupA_setA, if_neg (by decide), lookupA_setA, if_pos rfl, if_neg hs]

/-- C8 counterexample: for name ending in a slash the last slash-delimited
segment is empty, yet the code's simpleName is the whole normalized path,
not that last segment. -/
theorem c8_counterexample :
    lastSegSpec "a/" = "" ∧
    (parse_path_as_name [("name", Value.str "a/")] none).map
        (fun out => lookupA out "simpleName") = some (some (Value.str "a/")) ∧
    Value.str "a/" ≠ Value.str "" := by decide

/-- C8 witness: the amended parsing facts applied to the claim's example
path. -/
theorem c8_witness :
    ∃ out, parse_path_as_name [("name", Value.str "src/foo/bar.cpp")] none = some out ∧
      lookupA out "qualifiedName" = some (Value.str "src/foo/bar.cpp") ∧
      lookupA out "simpleName" =
        some (Value.str (if lastSegSpec "src/foo/bar.cpp" = ""
          then normSlashes "src/foo/bar.cpp" else lastSegSpec "src/foo/bar.cpp")) :=
  c8_parse_path.1 [("name", Value.str "src/foo/bar.cpp")] none "src/foo/bar.cpp" rfl

theorem flatten_appendA_perm {α : Type} (d : List (String × List α)) (k : String) (v : α) :
    ((appendA d k v).map Prod.snd).flatten.Perm (((d.map Prod.snd).flatten) ++ [v]) := by
  induction d with
  | nil => simp [appendA]
  | cons kv rest ih =>
      obtain ⟨k', l⟩ := kv
      by_cases h1 : k' = k
      · subst h1
        simp only [appendA, if_pos rfl, List.map, List.flatten_cons]
        have he1 : (l ++ [v]) ++ (List.map Prod.snd rest).flatten =
            l ++ ([v] ++ (List.map Prod.snd rest).flatten) := by
          rw [List.append_assoc]
        rw [he1]
        have hcomm : ([v] ++ (List.map Prod.snd rest).flatten).Perm
            ((List.map Prod.snd rest).flatten ++ [v]) := List.perm_append_comm
        have hp := List.Perm.append_left l hcomm
        have he2 : l ++ ((List.map Prod.snd rest).flatten ++ [v]) =
            (l ++ (List.map Prod.snd rest).flatten) ++ [v] := by
          rw [List.append_assoc]
        rw [he2] at hp
        exact hp
      · simp only [appendA, if_neg h1, List.map, List.flatten_cons]
        have hp := List.Perm.append_left l ih
        rw [← List.append_assoc] at hp
        exact hp

theorem groupByLabelE_perm (es : List Edge) :
    ((groupByLabelE es).map Prod.snd).flatten.Perm es := by
  unfold groupByLabelE
  suffices h : ∀ acc : List (String × List Edge),
      ((((es.foldl (fun d e => appendA d e.label e) acc)).map Prod.snd).flatten).Perm
        (((acc.map Prod.snd).flatten) ++ es) by
    simpa using h []
  induction es with
  | nil =>
      intro acc
      simp
  | cons e rest ih =>
      intro acc
      rw [List.foldl_cons]
      have h1 := ih (appendA acc e.label e)
      have h2 := (flatten_appendA_perm acc e.label e).append_right rest
      have h3 := h1.trans h2
      rw [List.append_assoc] at h3
      simpa using h3

/-- C9: the interchange round trip is lossless: converting a graph to the
canonical interchange representation and parsing it back yields exactly the
same node list and an edge list that is a permutation of the original
(edges are only regrouped by label). -/
theorem c9_interchange_roundtrip (g : GraphRepr) :
    (fromInterchange (toInterchange g)).allNodes = g.allNodes ∧
    (fromInterchange (toInterchange g)).allEdges.Perm g.allEdges := by
  constructor
  · unfold fromInterchange toInterchange GraphRepr.allNodes
    simp [List.map_map, Function.comp]
  · unfold fromInterchange toInterchange GraphRepr.allEdges
    exact groupByLabelE_perm _

theorem calls_map_spec (g : Graph) (s t : String) :
    t ∈ (lookupA (calls_map g) s).getD [] ↔
      ∃ e ∈ find_edges g "CppCalls", e.source = s ∧ e.target = t := by
  unfold calls_map
  have h := lookupA_foldl_appendA_dedup (fun e : Edge => e.source) (fun e : Edge => e.target)
    (find_edges g "CppCalls") [] s t
  simpa [lookupA] using h

theorem calls_map_keys_nodup (g : Graph) : (keysA (calls_map g)).Nodup := by
  unfold calls_map
  apply foldl_inv (fun d => (keysA d).Nodup) _ (find_edges g "CppCalls") [] (by simp [keysA])
  intro t a _ ht
  by_cases hc : a.target ∈ (lookupA t a.source).getD []
  · rw [if_pos hc]
    exact ht
  · rw [if_neg hc, keysA_appendA]
    by_cases h : a.source ∈ keysA t
    · rw [if_pos h]
      exact ht
    · rw [if_neg h]
      simp [List.nodup_append, ht, h]

theorem invoke_inner_mem (m : Smap) (ns : String) (ts : List String)
    (acc : List (String × String)) (a b : String) :
    ((a, b) ∈ ts.foldl (fun acc2 ot =>
        match lookupA m ot with
        | none => acc2
        | some nt => if ns ≠ nt ∧ (ns, nt) ∉ acc2 then acc2 ++ [(ns, nt)] else acc2) acc) ↔
      (a, b) ∈ acc ∨ (a = ns ∧ ∃ t ∈ ts, lookupA m t = some b ∧ ns ≠ b) := by
  induction ts generalizing acc with
  | nil => simp
  | cons t rest ih =>
      rw [List.foldl_cons, ih]
      rcases hmt : lookupA m t with _ | nt <;> simp only [hmt]
      · constructor
        · rintro (h | ⟨ha, t', ht', hb, hne⟩)
          · exact Or.inl h
          · exact Or.inr ⟨ha, t', by simp [ht'], hb, hne⟩
        · rintro (h | ⟨ha, t', ht', hb, hne⟩)
          · exact Or.inl h
          · rcases List.mem_cons.mp ht' with heq | ht'
            · subst heq
              rw [hmt] at hb
              exact Option.noConfusion hb
            · exact Or.inr ⟨ha, t', ht', hb, hne⟩
      · by_cases hcond : ns ≠ nt ∧ (ns, nt) ∉ acc
        · rw [if_pos hcond]
          constructor
          · rintro (h | ⟨ha, t', ht', hb, hne⟩)
            · rcases List.mem_append.mp h with h' | h'
              · exact Or.inl h'
              · have hab : (a, b) = (ns, nt) := by simpa using h'
                rw [Prod.mk.injEq] at hab
                exact Or.inr ⟨hab.1, t, by simp, by rw [hmt, hab.2], by
                  rw [hab.2]
                  exact hcond.1⟩
            · exact Or.inr ⟨ha, t', by simp [ht'], hb, hne⟩
          · rintro (h | ⟨ha, t', ht', hb, hne⟩)
            · exact Or.inl (List.mem_append.mpr (Or.inl h))
            · rcases List.mem_cons.mp ht' with heq | ht'
              · subst heq
                rw [hmt] at hb
                have hbn : nt = b := Option.some.inj hb
                subst hbn
                subst ha
                exact Or.inl (List.mem_append.mpr (Or.inr (by simp)))
              · exact Or.inr ⟨ha, t', ht', hb, hne⟩
        · rw [if_neg hcond]
          push_neg at hcond
          constructor
          · rintro (h | ⟨ha, t', ht', hb, hne⟩)
            · exact Or.inl h
            · exact Or.inr ⟨ha, t', by simp [ht'], hb, hne⟩
          · rintro (h | ⟨ha, t', ht', hb, hne⟩)
            · exact Or.inl h
            · rcases List.mem_cons.mp ht' with heq | ht'
              · subst heq
                rw [hmt] at hb
                have hbn : nt = b := Option.some.inj hb
                subst hbn
                subst ha
                exact Or.inl (hcond hne)
              · exact Or.inr ⟨ha, t', ht', hb, hne⟩

theorem invoke_outer_mem (m : Smap) (l : List (String × List String))
    (acc : List (String × String)) (a b : String) :
    ((a, b) ∈ l.foldl (fun acc kv =>
        match lookupA m kv.1 with
        | none => acc
        | some ns => kv.2.foldl (fun acc2 ot =>
            match lookupA m ot with
            | none => acc2
            | some nt => if ns ≠ nt ∧ (ns, nt) ∉ acc2 then acc2 ++ [(ns, nt)] else acc2) acc)
      acc) ↔
      (a, b) ∈ acc ∨ ∃ kv ∈ l, lookupA m kv.1 = some a ∧
        ∃ t ∈ kv.2, lookupA m t = some b ∧ a ≠ b := by
  induction l generalizing acc with
  | nil => simp
  | cons kv rest ih =>
      rw [List.foldl_cons, ih]
      rcases hm1 : lookupA m kv.1 with _ | ns <;> simp only [hm1]
      · constructor
        · rintro (h | ⟨kv', hkv', ha, t', ht', hb, hne⟩)
          · exact Or.inl h
          · exact Or.inr ⟨kv', by simp [hkv'], ha, t', ht', hb, hne⟩
        · rintro (h | ⟨kv', hkv', ha, t', ht', hb, hne⟩)
          · exact Or.inl h
          · rcases List.mem_cons.mp hkv' with heq | hkv'
            · subst heq
              rw [hm1] at ha
              exact Option.noConfusion ha
            · exact Or.inr ⟨kv', hkv', ha, t', ht', hb, hne⟩
      · rw [invoke_inner_mem]
        constructor
        · rintro ((h | ⟨ha, t', ht', hb, hne⟩) | ⟨kv', hkv', ha, t', ht', hb, hne⟩)
          · exact Or.inl h
          · subst ha
            exact Or.inr ⟨kv, by simp, hm1, t', ht', hb, hne⟩
          · exact Or.inr ⟨kv', by simp [hkv'], ha, t', ht', hb, hne⟩
        · rintro (h | ⟨kv', hkv', ha, t', ht', hb, hne⟩)
          · exact Or.inl (Or.inl h)
          · rcases List.mem_cons.mp hkv' with heq | hkv'
            · subst heq
              rw [hm1] at ha
              have hna : ns = a := Option.some.inj ha
              subst hna
              exact Or.inl (Or.inr ⟨rfl, t', ht', hb, hne⟩)
            · exact Or.inr ⟨kv', hkv', ha, t', ht', hb, hne⟩

theorem invoke_pairs_spec (g : Graph) (m : Smap) (a b : String) :
    (a, b) ∈ invoke_pairs g m ↔
      ∃ e ∈ find_edges g "CppCalls", lookupA m e.source = some a ∧
        lookupA m e.target = some b ∧ a ≠ b := by
  unfold invoke_pairs
  rw [invoke_outer_mem]
  simp only [List.not_mem_nil, false_or]
  constructor
  · rintro ⟨kv, hkv, ha, t, ht, hb, hne⟩
    have hlv := lookupA_of_mem_nodup (calls_map_keys_nodup g) hkv
    have htm : t ∈ (lookupA (calls_map g) kv.1).getD [] := by
      rw [hlv]
      exact ht
    obtain ⟨e, he, hs, htg⟩ := (calls_map_spec g kv.1 t).mp htm
    exact ⟨e, he, by rw [hs]; exact ha, by rw [htg]; exact hb, hne⟩
  · rintro ⟨e, he, ha, hb, hne⟩
    have ht : e.target ∈ (lookupA (calls_map g) e.source).getD [] :=
      (calls_map_spec g e.source e.target).mpr ⟨e, he, rfl, rfl⟩
    rcases hl : lookupA (calls_map g) e.source with _ | ts
    · rw [hl] at ht
      simp at ht
    · rw [hl] at ht
      exact ⟨(e.source, ts), lookupA_mem hl, ha, e.target, ht, hb, hne⟩

theorem invoke_pairs_nodup (g : Graph) (m : Smap) : (invoke_pairs g m).Nodup := by
  unfold invoke_pairs
  apply foldl_inv (fun acc : List (String × String) => acc.Nodup) _ (calls_map g) [] (by simp)
  intro t kv _ ht
  rcases hm1 : lookupA m kv.1 with _ | ns
  · simpa only [hm1] using ht
  · simp only [hm1]
    apply foldl_inv (fun acc2 : List (String × String) => acc2.Nodup) _ kv.2 t ht
    intro t2 ot _ ht2
    rcases hm2 : lookupA m ot with _ | nt
    · simpa only [hm2] using ht2
    · simp only [hm2]
      by_cases hc : ns ≠ nt ∧ (ns, nt) ∉ t2
      · rw [if_pos hc]
        simp [List.nodup_append, ht2, hc.2]
      · rw [if_neg hc]
        exact ht2

theorem invoke_pairs_ne (g : Graph) (m : Smap) : ∀ p ∈ invoke_pairs g m, p.1 ≠ p.2 := by
  intro p hp
  obtain ⟨e, _, _, _, hne⟩ := (invoke_pairs_spec g m p.1 p.2).mp (by simpa using hp)
  exact hne

theorem p2parentStep_hs (sm : Smap) (newId : String) (st : P2Hs) (p : String)
    (h : ∀ e ∈ st.hs, e.label = "hasScript") :
    ∀ e ∈ (p2parentStep sm newId st p).hs, e.label = "hasScript" := by
  intro e he
  unfold p2parentStep at he
  split at he
  · exact h e he
  next structNew hm =>
    dsimp only at he
    split at he
    next nObj hn =>
      split at he
      · rcases List.mem_append.mp he with h' | h'
        · exact h e h'
        · have he2 : e = Edge.mk structNew newId "hasScript" [] := by simpa using h'
          rw [he2]
      · rcases List.mem_append.mp he with h' | h'
        · exact h e h'
        · have he2 : e = Edge.mk structNew newId "hasScript" [] := by simpa using h'
          rw [he2]
    next =>
      rcases List.mem_append.mp he with h' | h'
      · exact h e h'
      · have he2 : e = Edge.mk structNew newId "hasScript" [] := by simpa using h'
        rw [he2]

theorem p2funcStep_hs (g : Graph) (sm mapping : Smap) (st : P2Hs) (oldId : String)
    (h : ∀ e ∈ st.hs, e.label = "hasScript") :
    ∀ e ∈ (p2funcStep g sm mapping st oldId).hs, e.label = "hasScript" := by
  intro e he
  unfold p2funcStep at he
  split at he
  · exact h e he
  next newId hm =>
    split at he
    · exact h e he
    · split at he
      · exact h e he
      next _ hn =>
        dsimp only at he
        have hfold := foldl_inv (fun st' : P2Hs => ∀ e ∈ st'.hs, e.label = "hasScript")
          (p2parentStep sm newId) ((lookupA (contains_map g) oldId).getD []) st h
          (fun t a _ ht => p2parentStep_hs sm newId t a ht)
        split at he
        next nObj hn2 =>
          split at he
          · exact hfold e he
          · exact hfold e he
        next => exact hfold e he

theorem p2edges_decomp (g : Graph) (sm : Smap) :
    p2edges g sm = ((all_func_ids g).foldl
        (p2funcStep g sm (p2afterCreate g).mapping) (P2Hs.mk (p2afterCreate g).nodes [])).hs
      ++ invokeEdges g (p2afterCreate g).mapping := rfl

theorem p2map_eq (g : Graph) (sm : Smap) : p2map g sm = (p2afterCreate g).mapping := rfl

/-- C6: in the output of collect_operations_and_macros, the invoke edges are
exactly one edge per distinct pair of mapped endpoints of original CppCalls
edges, self-loops are suppressed, and call edges with an unmapped endpoint
produce nothing. -/
theorem c6_invoke_edges (g : Graph) (sm : Smap) :
    (∀ e ∈ p2edges g sm, e.label = "invoke" → e ∈ invokeEdges g (p2map g sm)) ∧
    (∀ e ∈ invokeEdges g (p2map g sm), e ∈ p2edges g sm ∧ e.label = "invoke" ∧
      e.source ≠ e.target) ∧
    ((invokeEdges g (p2map g sm)).map (fun e => (e.source, e.target))).Nodup ∧
    (∀ a b, Edge.mk a b "invoke" [] ∈ invokeEdges g (p2map g sm) ↔
      ∃ e ∈ find_edges g "CppCalls", lookupA (p2map g sm) e.source = some a ∧
        lookupA (p2map g sm) e.target = some b ∧ a ≠ b) := by
  have hsL : ∀ e ∈ ((all_func_ids g).foldl
      (p2funcStep g sm (p2afterCreate g).mapping) (P2Hs.mk (p2afterCreate g).nodes [])).hs,
      e.label = "hasScript" := by
    apply foldl_inv (fun st : P2Hs => ∀ e ∈ st.hs, e.label = "hasScript")
      (p2funcStep g sm (p2afterCreate g).mapping) (all_func_ids g)
      (P2Hs.mk (p2afterCreate g).nodes []) (by simp)
    intro t a _ ht
    exact p2funcStep_hs g sm (p2afterCreate g).mapping t a ht
  refine ⟨?_, ?_, ?_, ?_⟩
  · intro e he hl
    rw [p2edges_decomp] at he
    rcases List.mem_append.mp he with h1 | h2
    · have := hsL e h1
      rw [hl] at this
      exact absurd this (by decide)
    · rw [p2map_eq]
      exact h2
  · intro e he
    refine ⟨by rw [p2edges_decomp]; exact List.mem_append.mpr (Or.inr (by rw [← p2map_eq]; exact he)), ?_, ?_⟩
    · obtain ⟨p, _, hpe⟩ := List.mem_map.mp he
      rw [← hpe]
    · obtain ⟨p, hp, hpe⟩ := List.mem_map.mp he
      have := invoke_pairs_ne g (p2map g sm) p hp
      rw [← hpe]
      exact this
  · have hmm : (invokeEdges g (p2map g sm)).map (fun e => (e.source, e.target)) =
        invoke_pairs g (p2map g sm) := by
      unfold invokeEdges
      rw [List.map_map]
      have hcomp : ((fun e : Edge => (e.source, e.target)) ∘ fun p : String × String =>
          Edge.mk p.1 p.2 "invoke" []) = fun p => p := by
        funext p
        cases p
        rfl
      rw [hcomp]
      exact List.map_id _
    rw [hmm]
    exact invoke_pairs_nodup g (p2map g sm)
  · intro a b
    constructor
    · intro he
      obtain ⟨p, hp, hpe⟩ := List.mem_map.mp he
      have hpab : p = (a, b) := by
        have h1 : p.1 = a := congrArg Edge.source hpe
        have h2 : p.2 = b := congrArg Edge.target hpe
        cases p
        simp at h1 h2
        rw [h1, h2]
      rw [hpab] at hp
      exact (invoke_pairs_spec g (p2map g sm) a b).mp hp
    · intro hex
      have hp := (invoke_pairs_spec g (p2map g sm) a b).mpr hex
      exact List.mem_map.mpr ⟨(a, b), hp, rfl⟩

/-- C6 witness: a duplicated call edge between a merged Operation and a
standalone Operation yields exactly one invoke edge, while the self call is
suppressed. -/
theorem c6_witness :
    Edge.mk "functiond1_c1" "funcdefe1" "invoke" [] ∈
      invokeEdges wGraphP2 (p2map wGraphP2 []) :=
  ((c6_invoke_edges wGraphP2 []).2.2.2 "functiond1_c1" "funcdefe1").mpr
    ⟨Edge.mk "d1" "e1" "CppCalls" [], by decide, by decide, by decide, by decide⟩

theorem ensure_mapped_pres (oldNode : Node) (nd : NDict) (cm : Smap) (x v : String)
    (hx : lookupA cm x = some v) :
    ∀ r, ensure_mapped_node_folder_or_structure oldNode nd cm = some r →
      lookupA r.2.2 x = some v := by
  intro r h
  unfold ensure_mapped_node_folder_or_structure at h
  split at h
  · cases Option.some.inj h
    exact hx
  next hnone =>
    split at h
    · exact Option.noConfusion h
    next props hp =>
      split at h
      · cases Option.some.inj h
        dsimp only
        rw [lookupA_setA]
        by_cases hxo : x = oldNode.id
        · rw [hxo] at hx
          rw [hx] at hnone
          exact Option.noConfusion hnone
        · rw [if_neg hxo]
          exact hx
      · dsimp only at h
        cases Option.some.inj h
        dsimp only
        rw [lookupA_setA]
        by_cases hxo : x = oldNode.id
        · rw [hxo] at hx
          rw [hx] at hnone
          exact Option.noConfusion hnone
        · rw [if_neg hxo]
          exact hx

theorem p4step_cm_pres (g : Graph) (x v : String) (o : Option P4St) (e : Edge)
    (h : ∀ st, o = some st → lookupA st.cm x = some v) :
    ∀ st, p4step g o e = some st → lookupA st.cm x = some v := by
  intro st hst
  unfold p4step at hst
  split at hst
  · exact Option.noConfusion hst
  next st0 =>
    split at hst
    next oldA oldB hA hB =>
      split at hst
      · exact Option.noConfusion hst
      next aNew nd1 cm1 hEA =>
        split at hst
        · exact Option.noConfusion hst
        next bNew nd2 cm2 hEB =>
          cases Option.some.inj hst
          have h1 := ensure_mapped_pres oldA st0.nd st0.cm x v (h st0 rfl) (aNew, nd1, cm1) hEA
          exact ensure_mapped_pres oldB nd1 cm1 x v h1 (bNew, nd2, cm2) hEB
    next =>
      cases Option.some.inj hst
      exact h _ rfl

theorem p3fileStep_cm_pres (kind : String) (x : String) (c : Option String)
    (o : Option P3Files) (n : Node) (hxn : n.id ≠ x)
    (h : ∀ st, o = some st → lookupA st.cm x = c) :
    ∀ st, p3fileStep kind o n = some st → lookupA st.cm x = c := by
  intro st hst
  unfold p3fileStep at hst
  split at hst
  · exact Option.noConfusion hst
  next st0 =>
    split at hst
    · exact Option.noConfusion hst
    next ps hps =>
      cases Option.some.inj hst
      dsimp only
      rw [lookupA_setA, if_neg (fun hh => hxn hh.symm)]
      exact h st0 rfl

theorem p2map_domain (g : Graph) (sm : Smap) (x : String)
    (h : (lookupA (p2map g sm) x).isSome = true) : x ∈ all_func_ids g := by
  rw [p2map_eq] at h
  revert h
  suffices hP : ∀ y, (lookupA (p2afterCreate g).mapping y).isSome = true →
      y ∈ all_func_ids g from hP x
  have hmerge : ∀ y, (lookupA (p2afterMerge g).mapping y).isSome = true →
      y ∈ all_func_ids g := by
    unfold p2afterMerge
    apply foldl_inv
      (fun st : P2St => ∀ y, (lookupA st.mapping y).isSome = true → y ∈ all_func_ids g)
      (p2mergeStep g) (defn_by_id g) (P2St.mk [] [] [])
      (by intro y hy; simp [lookupA] at hy)
    intro t kv hkv ht
    unfold p2mergeStep
    split
    · exact ht
    · apply foldl_inv
        (fun st : P2St => ∀ y, (lookupA st.mapping y).isSome = true → y ∈ all_func_ids g)
        (p2mergeInner g kv.1 kv.2) ((lookupA (decl_for_defn g) kv.1).getD []) t ht
      intro t2 c _ ht2
      unfold p2mergeInner
      split
      · exact ht2
      · split
        · exact ht2
        next cNode hcn =>
          intro y hy
          dsimp only at hy
          rw [lookupA_setA] at hy
          by_cases hyc : y = c
          · have hmemc : c ∈ keysA (decl_by_id g) :=
              lookupA_isSome_mem_keys.mp (by rw [hcn]; rfl)
            rw [hyc]
            unfold all_func_ids
            exact List.mem_append.mpr (Or.inl (List.mem_append.mpr (Or.inr hmemc)))
          · rw [if_neg hyc, lookupA_setA] at hy
            by_cases hyd : y = kv.1
            · have hmemd : kv.1 ∈ keysA (defn_by_id g) := List.mem_map.mpr ⟨kv, hkv, rfl⟩
              rw [hyd]
              unfold all_func_ids
              exact List.mem_append.mpr (Or.inl (List.mem_append.mpr (Or.inl hmemd)))
            · rw [if_neg hyd] at hy
              exact ht2 y hy
  have hldef : ∀ y, (lookupA ((defn_by_id g).foldl p2leftDefStep (p2afterMerge g)).mapping
      y).isSome = true → y ∈ all_func_ids g := by
    apply foldl_inv
      (fun st : P2St => ∀ y, (lookupA st.mapping y).isSome = true → y ∈ all_func_ids g)
      p2leftDefStep (defn_by_id g) (p2afterMerge g) hmerge
    intro t kv hkv ht
    unfold p2leftDefStep
    split
    · exact ht
    · intro y hy
      dsimp only at hy
      rw [lookupA_setA] at hy
      by_cases hyd : y = kv.1
      · have hmemd : kv.1 ∈ keysA (defn_by_id g) := List.mem_map.mpr ⟨kv, hkv, rfl⟩
        rw [hyd]
        unfold all_func_ids
        exact List.mem_append.mpr (Or.inl (List.mem_append.mpr (Or.inl hmemd)))
      · rw [if_neg hyd] at hy
        exact ht y hy
  have hldecl : ∀ y, (lookupA ((decl_by_id g).foldl p2leftDeclStep
      ((defn_by_id g).foldl p2leftDefStep (p2afterMerge g))).mapping y).isSome = true →
      y ∈ all_func_ids g := by
    apply foldl_inv
      (fun st : P2St => ∀ y, (lookupA st.mapping y).isSome = true → y ∈ all_func_ids g)
      p2leftDeclStep (decl_by_id g) _ hldef
    intro t kv hkv ht
    unfold p2leftDeclStep
    split
    · exact ht
    · intro y hy
      dsimp only at hy
      rw [lookupA_setA] at hy
      by_cases hyd : y = kv.1
      · have hmemd : kv.1 ∈ keysA (decl_by_id g) := List.mem_map.mpr ⟨kv, hkv, rfl⟩
        rw [hyd]
        unfold all_func_ids
        exact List.mem_append.mpr (Or.inl (List.mem_append.mpr (Or.inr hmemd)))
      · rw [if_neg hyd] at hy
        exact ht y hy
  unfold p2afterCreate
  apply foldl_inv
    (fun st : P2St => ∀ y, (lookupA st.mapping y).isSome = true → y ∈ all_func_ids g)
    p2macroStep (macr_by_id g) _ hldecl
  intro t kv hkv ht
  unfold p2macroStep
  split
  · exact ht
  · intro y hy
    dsimp only at hy
    rw [lookupA_setA] at hy
    by_cases hyd : y = kv.1
    · have hmemd : kv.1 ∈ keysA (macr_by_id g) := List.mem_map.mpr ⟨kv, hkv, rfl⟩
      rw [hyd]
      unfold all_func_ids
      exact List.mem_append.mpr (Or.inr hmemd)
    · rw [if_neg hyd] at hy
      exact ht y hy

/-- C3 (amended): pass 4 extends the mapping without overwriting any existing
entry; pass 3 preserves every entry whose old id is not a SourceFile,
HeaderFile or OtherFile node id (file ids are written unconditionally, so a
dual-labelled node is remapped); pass 2 builds a separate mapping whose
domain is the function and macro node ids, so merging it over the pass-1
mapping can only overwrite entries at ids that also carry a function or
macro label.  Within pass 2, a definition implementing several declarations
is remapped at each merge (see the counterexample for C4). -/
theorem c3_mapping_monotone (g : Graph) :
    (∀ ex out x v, invert_parent_folder_edges g ex = some out →
      lookupA ex x = some v → lookupA out.2.2 x = some v) ∧
    (∀ ex nl out x, collect_files_and_associations g ex nl = some out →
      x ∉ fileIds g → lookupA out.2.2 x = lookupA ex x) ∧
    (∀ sm x, x ∉ all_func_ids g → lookupA (updateA sm (p2map g sm)) x = lookupA sm x) := by
  refine ⟨?_, ?_, ?_⟩
  · intro ex out x v h hx
    unfold invert_parent_folder_edges at h
    split at h
    · exact Option.noConfusion h
    next st hst =>
      cases Option.some.inj h
      have hfold := foldl_inv (fun o : Option P4St => ∀ st', o = some st' →
          lookupA st'.cm x = some v)
        (p4step g) (find_edges g "ParentFolder") (some (P4St.mk [] [] ex))
        (by
          intro st' hst'
          cases Option.some.inj hst'
          exact hx)
        (fun t a _ ht => p4step_cm_pres g x v t a ht)
      exact hfold st hst
  · intro ex nl out x h hx
    unfold collect_files_and_associations at h
    split at h
    · exact Option.noConfusion h
    next fst hf =>
      cases Option.some.inj h
      dsimp only
      have hsf : ∀ n ∈ find_nodes g "SourceFile", n.id ≠ x := by
        intro n hn hh
        exact hx (by
          unfold fileIds
          exact List.mem_append.mpr (Or.inl (List.mem_append.mpr
            (Or.inl (List.mem_map.mpr ⟨n, hn, hh⟩)))))
      have hhf : ∀ n ∈ find_nodes g "HeaderFile", n.id ≠ x := by
        intro n hn hh
        exact hx (by
          unfold fileIds
          exact List.mem_append.mpr (Or.inl (List.mem_append.mpr
            (Or.inr (List.mem_map.mpr ⟨n, hn, hh⟩)))))
      have hof : ∀ n ∈ find_nodes g "OtherFile", n.id ≠ x := by
        intro n hn hh
        exact hx (by
          unfold fileIds
          exact List.mem_append.mpr (Or.inr (List.mem_map.mpr ⟨n, hn, hh⟩)))
      have base : ∀ st, (some (P3Files.mk [] ex) : Option P3Files) = some st →
          lookupA st.cm x = lookupA ex x := by
        intro st hst
        cases Option.some.inj hst
        rfl
      have h1 := foldl_inv (fun o : Option P3Files => ∀ st, o = some st →
          lookupA st.cm x = lookupA ex x)
        (p3fileStep "source file") (find_nodes g "SourceFile") (some (P3Files.mk [] ex)) base
        (fun t a ha ht => p3fileStep_cm_pres "source file" x (lookupA ex x) t a (hsf a ha) ht)
      have h2 := foldl_inv (fun o : Option P3Files => ∀ st, o = some st →
          lookupA st.cm x = lookupA ex x)
        (p3fileStep "header file") (find_nodes g "HeaderFile") _ h1
        (fun t a ha ht => p3fileStep_cm_pres "header file" x (lookupA ex x) t a (hhf a ha) ht)
      have h3 := foldl_inv (fun o : Option P3Files => ∀ st, o = some st →
          lookupA st.cm x = lookupA ex x)
        (p3fileStep "other file") (find_nodes g "OtherFile") _ h2
        (fun t a ha ht => p3fileStep_cm_pres "other file" x (lookupA ex x) t a (hof a ha) ht)
      exact h3 fst hf
  · intro sm x hx
    have hnone : lookupA (p2map g sm) x = none := by
      rcases hl : lookupA (p2map g sm) x with _ | v
      · rfl
      · exact absurd (p2map_domain g sm x (by rw [hl]; rfl)) hx
    exact lookupA_updateA_not_mem sm (p2map g sm) x hnone

/-- C3 counterexample: a node labelled both CppDeclaration and SourceFile is
mapped by pass 1 and remapped by pass 3 even though the id is already
present in the mapping it receives. -/
theorem c3_counterexample :
    lookupA (p1mapping cxGraphC3) "n1" = some "variablen1" ∧
    (collect_files_and_associations cxGraphC3 (p1mapping cxGraphC3) (p1nodes cxGraphC3)).map
      (fun out => lookupA out.2.2 "n1") = some (some "filen1") ∧
    ("filen1" : String) ≠ "variablen1" := by decide

/-- C3 witness: pass 4 preserves an existing mapping entry on a concrete
graph with a ParentFolder edge. -/
theorem c3_witness :
    ∃ out, invert_parent_folder_edges wGraphP3 [("v1", "variablev1"), ("f1", "filef1")] = some out ∧
      lookupA out.2.2 "v1" = some "variablev1" :=
  ⟨(invert_parent_folder_edges wGraphP3 [("v1", "variablev1"), ("f1", "filef1")]).getD ([], [], []),
    by decide,
    (c3_mapping_monotone wGraphP3).1 [("v1", "variablev1"), ("f1", "filef1")]
      ((invert_parent_folder_edges wGraphP3 [("v1", "variablev1"), ("f1", "filef1")]).getD ([], [], []))
      "v1" "variablev1" (by decide) (by decide)⟩

theorem funcdef_ne_opId (x d c : String) : "funcdef" ++ x ≠ opId d c := by
  unfold opId
  rw [String.append_assoc, String.append_assoc]
  exact funcdef_ne_function x (d ++ ("_" ++ c))

theorem funcdecl_ne_opId (x d c : String) : "funcdecl" ++ x ≠ opId d c := by
  unfold opId
  rw [String.append_assoc, String.append_assoc]
  exact funcdecl_ne_function x (d ++ ("_" ++ c))

theorem macro_ne_opId (x d c : String) : "macro" ++ x ≠ opId d c := by
  unfold opId
  rw [String.append_assoc, String.append_assoc]
  exact macro_ne_function x (d ++ ("_" ++ c))

theorem p2mergeStep_goal_pres (g : Graph) (d c : String) (v : Node)
    (hcd : c ∉ keysA (defn_by_id g)) (hdc : d ∉ keysA (decl_by_id g))
    (hop : ∀ d2 ∈ keysA (defn_by_id g), ∀ c2 ∈ keysA (decl_by_id g),
      opId d2 c2 = opId d c → d2 = d ∧ c2 = c)
    (st : P2St) (kv : String × Node) (hkv : kv.1 ∈ keysA (defn_by_id g))
    (hP : P2Goal d c v st) : P2Goal d c v (p2mergeStep g st kv) := by
  obtain ⟨h1, h2, h3, h4, h5⟩ := hP
  unfold p2mergeStep
  split
  · exact ⟨h1, h2, h3, h4, h5⟩
  next hnh =>
    have hkd : kv.1 ≠ d := fun he => hnh (he ▸ h4)
    have hkc : kv.1 ≠ c := fun he => hcd (he ▸ hkv)
    refine foldl_inv (P2Goal d c v) (p2mergeInner g kv.1 kv.2) _ st ⟨h1, h2, h3, h4, h5⟩ ?_
    intro t a ha ht
    obtain ⟨g1, g2, g3, g4, g5⟩ := ht
    unfold p2mergeInner
    split
    · exact ⟨g1, g2, g3, g4, g5⟩
    next hna =>
      split
      · exact ⟨g1, g2, g3, g4, g5⟩
      next cNode hsome =>
        have hamem : a ∈ keysA (decl_by_id g) :=
          lookupA_isSome_mem_keys.mp (by rw [hsome]; rfl)
        have had : a ≠ d := fun he => hdc (he ▸ hamem)
        have hac : a ≠ c := fun he => hna (he ▸ g5)
        have hne : opId d c ≠ opId kv.1 a :=
          fun he => hkd ((hop kv.1 hkv a hamem he.symm).1)
        dsimp only
        refine ⟨?_, ?_, ?_, ?_, ?_⟩
        · rw [lookupA_setA, if_neg (Ne.symm had), lookupA_setA, if_neg (Ne.symm hkd)]
          exact g1
        · rw [lookupA_setA, if_neg (Ne.symm hac), lookupA_setA, if_neg (Ne.symm hkc)]
          exact g2
        · rw [lookupA_setA, if_neg hne]
          exact g3
        · exact List.mem_append.mpr (Or.inl g4)
        · exact List.mem_append.mpr (Or.inl g5)

/-- C4 (amended): for a definition `d` implementing exactly the declaration
`c`, where no other definition implements `c`, `c` is not itself a definition
id, `d` is not itself a declaration id, and no other definition-declaration
pair produces the same composite id, `collect_operations_and_macros` maps both
old ids to the single Operation id `function{d}_{c}` and creates (before the
containment stage finalises the kind property) exactly that Operation node,
with properties `merge_properties(def props, decl props)` — declaration
properties overridden by definition properties, then renamed and stamped.
When one definition implements several declarations, each declaration instead
gets its own Operation, and the definition's mapping entry keeps only the
last one (see the counterexample). -/
theorem c4_merge_pairs (g : Graph) (sm : Smap) (d c : String) (dN cN : Node)
    (hD : lookupA (defn_by_id g) d = some dN)
    (hC : lookupA (decl_by_id g) c = some cN)
    (himp : lookupA (decl_for_defn g) d = some [c])
    (huniq : ∀ d2 ∈ keysA (decl_for_defn g),
      c ∈ (lookupA (decl_for_defn g) d2).getD [] → d2 = d)
    (hcd : c ∉ keysA (defn_by_id g))
    (hdc : d ∉ keysA (decl_by_id g))
    (hop : ∀ d2 ∈ keysA (defn_by_id g), ∀ c2 ∈ keysA (decl_by_id g),
      opId d2 c2 = opId d c → d2 = d ∧ c2 = c) :
    lookupA (p2map g sm) d = some (opId d c) ∧
    lookupA (p2map g sm) c = some (opId d c) ∧
    lookupA (p2afterCreate g).nodes (opId d c) =
      some (Node.mk (opId d c) ["Operation"] (merge_properties dN.props cN.props)) := by
  obtain ⟨l, r, hsplit, hnotl⟩ := lookupA_split hD
  have hA : d ∉ (l.foldl (p2mergeStep g) (P2St.mk [] [] [])).handled ∧
      c ∉ (l.foldl (p2mergeStep g) (P2St.mk [] [] [])).handled := by
    refine foldl_inv (fun s : P2St => d ∉ s.handled ∧ c ∉ s.handled)
      (p2mergeStep g) l (P2St.mk [] [] []) ⟨by simp, by simp⟩ ?_
    intro t kv hkvl ht
    have hkvdefn : kv ∈ defn_by_id g := by
      rw [hsplit]; exact List.mem_append.mpr (Or.inl hkvl)
    have hkv1 : kv.1 ∈ keysA (defn_by_id g) := List.mem_map.mpr ⟨kv, hkvdefn, rfl⟩
    have hkvd : kv.1 ≠ d := fun he => hnotl (he ▸ List.mem_map.mpr ⟨kv, hkvl, rfl⟩)
    have hkvc : kv.1 ≠ c := fun he => hcd (he ▸ hkv1)
    unfold p2mergeStep
    split
    · exact ht
    next hnh =>
      refine foldl_inv (fun s : P2St => d ∉ s.handled ∧ c ∉ s.handled)
        (p2mergeInner g kv.1 kv.2) _ t ht ?_
      intro s a ha hs
      unfold p2mergeInner
      split
      · exact hs
      next hna =>
        split
        · exact hs
        next cNode hsome =>
          have hamem : a ∈ keysA (decl_by_id g) :=
            lookupA_isSome_mem_keys.mp (by rw [hsome]; rfl)
          have had : a ≠ d := fun he => hdc (he ▸ hamem)
          have hac : a ≠ c := by
            intro he
            have hmem : c ∈ (lookupA (decl_for_defn g) kv.1).getD [] := he ▸ ha
            have hdsome : kv.1 ∈ keysA (decl_for_defn g) := by
              cases hcase : lookupA (decl_for_defn g) kv.1 with
              | none => rw [hcase] at hmem; simp at hmem
              | some L => exact lookupA_isSome_mem_keys.mp (by rw [hcase]; rfl)
            exact hkvd (huniq kv.1 hdsome hmem)
          dsimp only
          refine ⟨?_, ?_⟩
          · intro hmem
            rcases List.mem_append.mp hmem with hh | hh
            · exact hs.1 hh
            · simp only [List.mem_cons, List.not_mem_nil, or_false] at hh
              rcases hh with hh | hh
              · exact hkvd hh.symm
              · exact had hh.symm
          · intro hmem
            rcases List.mem_append.mp hmem with hh | hh
            · exact hs.2 hh
            · simp only [List.mem_cons, List.not_mem_nil, or_false] at hh
              rcases hh with hh | hh
              · exact hkvc hh.symm
              · exact hac hh.symm
  have hGM : P2Goal d c
      (Node.mk (opId d c) ["Operation"] (merge_properties dN.props cN.props))
      (p2afterMerge g) := by
    unfold p2afterMerge
    rw [hsplit, List.foldl_append, List.foldl_cons]
    refine foldl_inv
      (P2Goal d c (Node.mk (opId d c) ["Operation"] (merge_properties dN.props cN.props)))
      (p2mergeStep g) r _ ?_ ?_
    · unfold p2mergeStep
      dsimp only
      rw [himp]
      dsimp only [Option.getD]
      split
      next hin => exact absurd hin hA.1
      next hnin =>
        dsimp only [List.foldl]
        unfold p2mergeInner
        split
        next hin2 => exact absurd hin2 hA.2
        next hnin2 =>
          split
          next hnone => rw [hC] at hnone; cases hnone
          next cN2 hsome =>
            rw [hC] at hsome
            cases Option.some.inj hsome
            dsimp only
            refine ⟨?_, ?_, ?_, ?_, ?_⟩
            · rw [lookupA_setA]
              by_cases hdc2 : d = c
              · rw [if_pos hdc2]
              · rw [if_neg hdc2, lookupA_setA, if_pos rfl]
            · rw [lookupA_setA, if_pos rfl]
            · rw [lookupA_setA, if_pos rfl]
            · exact List.mem_append.mpr (Or.inr (by simp))
            · exact List.mem_append.mpr (Or.inr (by simp))
    · intro t kv hkvr ht
      have hkvdefn : kv ∈ defn_by_id g := by
        rw [hsplit]
        exact List.mem_append.mpr (Or.inr (List.mem_cons_of_mem _ hkvr))
      exact p2mergeStep_goal_pres g d c _ hcd hdc hop t kv
        (List.mem_map.mpr ⟨kv, hkvdefn, rfl⟩) ht
  have hGC : P2Goal d c
      (Node.mk (opId d c) ["Operation"] (merge_properties dN.props cN.props))
      (p2afterCreate g) := by
    unfold p2afterCreate
    refine foldl_inv
      (P2Goal d c (Node.mk (opId d c) ["Operation"] (merge_properties dN.props cN.props)))
      p2macroStep (macr_by_id g) _ ?_ ?_
    · refine foldl_inv
        (P2Goal d c (Node.mk (opId d c) ["Operation"] (merge_properties dN.props cN.props)))
        p2leftDeclStep (decl_by_id g) _ ?_ ?_
      · refine foldl_inv
          (P2Goal d c (Node.mk (opId d c) ["Operation"] (merge_properties dN.props cN.props)))
          p2leftDefStep (defn_by_id g) _ hGM ?_
        intro t kv hkv ht
        obtain ⟨h1, h2, h3, h4, h5⟩ := ht
        unfold p2leftDefStep
        split
        · exact ⟨h1, h2, h3, h4, h5⟩
        next hnh =>
          have hkd : kv.1 ≠ d := fun he => hnh (he ▸ h4)
          have hkc : kv.1 ≠ c := fun he => hnh (he ▸ h5)
          unfold P2Goal
          dsimp only
          refine ⟨?_, ?_, ?_, ?_, ?_⟩
          · rw [lookupA_setA, if_neg (Ne.symm hkd)]; exact h1
          · rw [lookupA_setA, if_neg (Ne.symm hkc)]; exact h2
          · rw [lookupA_setA, if_neg (Ne.symm (funcdef_ne_opId kv.1 d c))]; exact h3
          · exact List.mem_append.mpr (Or.inl h4)
          · exact List.mem_append.mpr (Or.inl h5)
      · intro t kv hkv ht
        obtain ⟨h1, h2, h3, h4, h5⟩ := ht
        unfold p2leftDeclStep
        split
        · exact ⟨h1, h2, h3, h4, h5⟩
        next hnh =>
          have hkd : kv.1 ≠ d := fun he => hnh (he ▸ h4)
          have hkc : kv.1 ≠ c := fun he => hnh (he ▸ h5)
          unfold P2Goal
          dsimp only
          refine ⟨?_, ?_, ?_, ?_, ?_⟩
          · rw [lookupA_setA, if_neg (Ne.symm hkd)]; exact h1
          · rw [lookupA_setA, if_neg (Ne.symm hkc)]; exact h2
          · rw [lookupA_setA, if_neg (Ne.symm (funcdecl_ne_opId kv.1 d c))]; exact h3
          · exact List.mem_append.mpr (Or.inl h4)
          · exact List.mem_append.mpr (Or.inl h5)
    · intro t kv hkv ht
      obtain ⟨h1, h2, h3, h4, h5⟩ := ht
      unfold p2macroStep
      split
      · exact ⟨h1, h2, h3, h4, h5⟩
      next hnm =>
        have hkd : kv.1 ≠ d := fun he => hnm (by rw [he, h1]; rfl)
        have hkc : kv.1 ≠ c := fun he => hnm (by rw [he, h2]; rfl)
        unfold P2Goal
        dsimp only
        refine ⟨?_, ?_, ?_, h4, h5⟩
        · rw [lookupA_setA, if_neg (Ne.symm hkd)]; exact h1
        · rw [lookupA_setA, if_neg (Ne.symm hkc)]; exact h2
        · rw [lookupA_setA, if_neg (Ne.symm (macro_ne_opId kv.1 d c))]; exact h3
  exact ⟨hGC.1, hGC.2.1, hGC.2.2.1⟩

/-- C4 counterexample: in a graph where one definition `d0` implements two
declarations `c1` and `c2`, pass 2 creates two Operation nodes and the final
mapping sends `d0` to `functiond0_c2` but `c1` to `functiond0_c1`: the
definition and its first declaration do not share one Operation id, refuting
the claim's several-declarations clause. -/
theorem c4_counterexample :
    Edge.mk "d0" "c1" "CppImplements" [] ∈ cxGraphC4.edges ∧
    Edge.mk "d0" "c2" "CppImplements" [] ∈ cxGraphC4.edges ∧
    lookupA (p2map cxGraphC4 []) "d0" = some "functiond0_c2" ∧
    lookupA (p2map cxGraphC4 []) "c1" = some "functiond0_c1" ∧
    lookupA (p2map cxGraphC4 []) "c2" = some "functiond0_c2" ∧
    (lookupA (p2afterCreate cxGraphC4).nodes "functiond0_c1").isSome = true ∧
    (lookupA (p2afterCreate cxGraphC4).nodes "functiond0_c2").isSome = true ∧
    ("functiond0_c1" : String) ≠ "functiond0_c2" := by decide

theorem c4_witness :
    lookupA (p2map wGraphP2 []) "d1" = some (opId "d1" "c1") ∧
    lookupA (p2map wGraphP2 []) "c1" = some (opId "d1" "c1") ∧
    lookupA (p2afterCreate wGraphP2).nodes (opId "d1" "c1") =
      some (Node.mk (opId "d1" "c1") ["Operation"]
        (merge_properties [("symbol", Value.str "f")] [("name", Value.str "ns::f")])) :=
  c4_merge_pairs wGraphP2 [] "d1" "c1"
    (Node.mk "d1" ["CppFunctionDefinition"] [("symbol", Value.str "f")])
    (Node.mk "c1" ["CppFunctionDeclaration"] [("name", Value.str "ns::f")])
    (by decide) (by decide) (by decide) (by decide) (by decide) (by decide) (by decide)
